import Mathlib

/-!
# Verification of the PNG→SVG autotrace pipeline

Shallow embedding of the raster-to-vector engine: color quantization,
mask construction, hybrid morphological dilation, Moore-neighbor contour
tracing with flood-fill bookkeeping, Douglas-Peucker simplification and
cubic-Bezier curve fitting, together with proofs of the behavioural
properties stated in the documentation.

Conventions of the embedding:
* JS `number[][]` grids become `List (List ℕ)`; reads mirror the source's
  bounds checks (`undefined` never compares equal to `1`, so an
  out-of-range read is modelled as `0`).
* Pixel coordinates are `ℤ` (JS numbers used as signed integers).
* Geometric points are pairs of rationals; JS float arithmetic is
  modelled as exact arithmetic.  Comparisons of Euclidean distances
  against constants are embedded square-free equivalently by comparing
  squared distances (`sqrt d < c ↔ d < c²` for `0 ≤ c`), keeping every
  definition executable; curve-fitting output, which genuinely divides
  by square roots, lives in `ℝ`.
* Mutation becomes explicit state passing; `while` loops become fuel
  recursion, with the fuel taken from the source's own iteration cap
  where it has one.
-/

namespace PngSvg

-- Batteries marks the `Rat` field operations `@[irreducible]`, which
-- blocks elaborator-side evaluation (`decide`, `rfl`) of the exact
-- rational arithmetic this embedding uses for JS floats; re-allow
-- unfolding them (the kernel ignores reducibility attributes anyway).
unseal Rat.add Rat.sub Rat.mul Rat.inv

/-- A 2-D grid of numbers (JS `number[][]`), row-major: `g[y][x]`. -/
abbrev Grid := List (List ℕ)

/-- `mask[0].length` of the source (width of a grid). -/
def gridW (g : Grid) : ℕ := (g.headD []).length

/-- `mask.length` of the source (height of a grid). -/
def gridH (g : Grid) : ℕ := g.length

/-- Raw double indexing `g[y][x]`; a JS `undefined` read (out of range)
is modelled as `0`, which like `undefined` is `≠ 1`. -/
def readPix (g : Grid) (x y : ℤ) : ℕ :=
  if 0 ≤ x ∧ 0 ≤ y then (g.getD y.toNat []).getD x.toNat 0 else 0

/-- Bounds-checked read used by the tracer (`getPixel` in the source):
`0` outside `[0,w) × [0,h)`, otherwise `g[y][x]`. -/
def getPix (g : Grid) (x y : ℤ) : ℕ :=
  if 0 ≤ x ∧ 0 ≤ y ∧ x < (gridW g : ℤ) ∧ y < (gridH g : ℤ) then readPix g x y else 0

/-- `output[y][x] = v` (in-place update of a grid entry; no-op out of range,
though every use in the source is in range). -/
def setPix (g : Grid) (x y : ℤ) (v : ℕ) : Grid :=
  if 0 ≤ x ∧ 0 ≤ y then g.set y.toNat ((g.getD y.toNat []).set x.toNat v) else g

/-- `Array(height).fill(null).map(() => Array(width).fill(0))`. -/
def zeroGrid (h w : ℕ) : Grid := List.replicate h (List.replicate w 0)

/-! ## Step 2b: morphological dilation (`step2b_dilate.js`) -/

/-- The 3×3 neighbourhood offsets `(dy, dx)` in the source's loop order. -/
def dilateDeltas : List (ℤ × ℤ) :=
  [(-1,-1),(-1,0),(-1,1),(0,-1),(0,0),(0,1),(1,-1),(1,0),(1,1)]

/-- The "SMART DILATION CHECK": `coverageMask === null || coverageMask[ny][nx] === 1`. -/
def covOK (coverageMask : Option Grid) (x y : ℤ) : Bool :=
  match coverageMask with
  | none => true
  | some c => readPix c x y == 1

/-- The body of `dilateOnce`'s double loop for one source pixel `(x, y)`:
if the mask is set there, write `1` to itself and all 8 neighbours of the
output buffer, subject to the bounds check and the coverage check. -/
def dilateCell (m : Grid) (cov : Option Grid) (h w : ℕ) (y x : ℕ) (out : Grid) : Grid :=
  if readPix m x y = 1 then
    dilateDeltas.foldl (fun o d =>
      if 0 ≤ (y : ℤ) + d.1 ∧ (y : ℤ) + d.1 < (h : ℤ) ∧
          0 ≤ (x : ℤ) + d.2 ∧ (x : ℤ) + d.2 < (w : ℤ) then
        if covOK cov ((x : ℤ) + d.2) ((y : ℤ) + d.1) then
          setPix o ((x : ℤ) + d.2) ((y : ℤ) + d.1) 1
        else o
      else o) out
  else out

/-- `dilateOnce(mask, coverageMask)`: scatter every foreground pixel into a
fresh zero buffer. -/
def dilateOnce (m : Grid) (cov : Option Grid) : Grid :=
  let h := gridH m
  let w := gridW m
  (List.range h).foldl
    (fun o y => (List.range w).foldl (fun o2 x => dilateCell m cov h w y x o2) o)
    (zeroGrid h w)

/-- `dilateHybrid(mask, coverageMask, {unconditionalPasses, smartPasses})`:
first the unconditional passes (`null` coverage), then the smart passes. -/
def dilateHybrid (m : Grid) (coverageMask : Grid)
    (unconditionalPasses smartPasses : ℕ) : Grid :=
  let r1 := (List.range unconditionalPasses).foldl (fun r _ => dilateOnce r none) m
  (List.range smartPasses).foldl (fun r _ => dilateOnce r (some coverageMask)) r1

/-! ## Step 3: contour tracing (`step3_tracing.js`) -/

/-- A traced boundary point (JS `{x, y}` with integer pixel coordinates). -/
structure Pix where
  x : ℤ
  y : ℤ
deriving DecidableEq, Repr

/-- `DIRECTIONS` — the Moore neighbourhood in clockwise order, as
`(dx, dy)` pairs indexed N, NE, E, SE, S, SW, W, NW. -/
def traceDirs : List (ℤ × ℤ) :=
  [(0,-1), (1,-1), (1,0), (1,1), (0,1), (-1,1), (-1,0), (-1,-1)]

/-- The inner clockwise scan of `mooreNeighborTrace`: starting at the
backtrack direction, return the first of the 8 compass directions whose
target is an in-bounds foreground pixel (`foundNext`), if any. -/
def findNext (m : Grid) (cx cy : ℤ) (backtrackDir : ℕ) : Option ℕ :=
  (List.range 8).findSome? (fun i =>
    if 0 ≤ cx + (traceDirs.getD ((backtrackDir + i) % 8) (0, 0)).1 ∧
        0 ≤ cy + (traceDirs.getD ((backtrackDir + i) % 8) (0, 0)).2 ∧
        cx + (traceDirs.getD ((backtrackDir + i) % 8) (0, 0)).1 < (gridW m : ℤ) ∧
        cy + (traceDirs.getD ((backtrackDir + i) % 8) (0, 0)).2 < (gridH m : ℤ) ∧
        readPix m (cx + (traceDirs.getD ((backtrackDir + i) % 8) (0, 0)).1)
          (cy + (traceDirs.getD ((backtrackDir + i) % 8) (0, 0)).2) = 1
    then some ((backtrackDir + i) % 8) else none)

/-- How the boundary walk of `mooreNeighborTrace` stopped: back at the
start pixel, no foreground neighbour, or the `MAX_LOOP` iteration cap. -/
inductive TermKind where
  | closed
  | isolated
  | capped
deriving DecidableEq, Repr

/-- The `while (true)` walk of `mooreNeighborTrace`: returns the points
pushed inside the loop (in order) and the reason the loop stopped. -/
def traceLoopK (m : Grid) (startX startY : ℤ) :
    ℕ → ℤ → ℤ → ℕ → List Pix × TermKind
  | 0, _, _, _ => ([], .capped)
  | fuel+1, cx, cy, backtrackDir =>
    match findNext m cx cy backtrackDir with
    | none => ([], .isolated)
    | some checkDir =>
      if cx + (traceDirs.getD checkDir (0, 0)).1 = startX ∧
          cy + (traceDirs.getD checkDir (0, 0)).2 = startY then ([], .closed)
      else
        let r := traceLoopK m startX startY fuel
          (cx + (traceDirs.getD checkDir (0, 0)).1)
          (cy + (traceDirs.getD checkDir (0, 0)).2) ((checkDir + 7) % 8)
        (⟨cx + (traceDirs.getD checkDir (0, 0)).1,
          cy + (traceDirs.getD checkDir (0, 0)).2⟩ :: r.1, r.2)

/-- The source's hard iteration cap `MAX_LOOP`. -/
def MAX_LOOP : ℕ := 10000

/-- `mooreNeighborTrace` instrumented with its termination reason: the
start pixel is pushed before the loop, then the walk runs with the cap. -/
def mooreNeighborTraceFull (m : Grid) (startX startY : ℤ)
    (initialBacktrackDir : ℕ) : List Pix × TermKind :=
  ((⟨startX, startY⟩ : Pix) ::
      (traceLoopK m startX startY MAX_LOOP startX startY initialBacktrackDir).1,
    (traceLoopK m startX startY MAX_LOOP startX startY initialBacktrackDir).2)

/-- `mooreNeighborTrace(mask, startX, startY, visited, initialBacktrackDir)`.
The `visited` argument is received but never read by the source's walk
(only the outer scan's flood fill writes it), so it is ignored here too. -/
def mooreNeighborTrace (m : Grid) (startX startY : ℤ)
    (visited : Finset (ℤ × ℤ)) (initialBacktrackDir : ℕ) : List Pix :=
  (mooreNeighborTraceFull m startX startY initialBacktrackDir).1

/-- A traced contour record (`{points, isHole}`; `isHole` is always
emitted `false` by this pipeline). -/
structure Contour where
  points : List Pix
  isHole : Bool
deriving DecidableEq, Repr

/-- The 4-connected neighbour list of `floodFillVisited`, in source order. -/
def floodNbrs (x y : ℤ) : List (ℤ × ℤ) := [(x + 1, y), (x - 1, y), (x, y + 1), (x, y - 1)]

/-- The BFS loop of `floodFillVisited`: dequeue, mark and enqueue every
in-bounds unvisited foreground 4-neighbour.  The queue mutation becomes
explicit state; the `while` is fuelled (each iteration shrinks
`5·|unvisited foreground| + |queue|`, so the fuel passed by
`floodFillVisited` always suffices). -/
def floodLoop (m : Grid) : ℕ → List (ℤ × ℤ) → Finset (ℤ × ℤ) → Finset (ℤ × ℤ)
  | 0, _, visited => visited
  | _ + 1, [], visited => visited
  | fuel + 1, (x, y) :: rest, visited =>
    let new := (floodNbrs x y).filter (fun n =>
      decide (0 ≤ n.1 ∧ n.1 < (gridW m : ℤ) ∧ 0 ≤ n.2 ∧ n.2 < (gridH m : ℤ) ∧
        readPix m n.1 n.2 = 1 ∧ n ∉ visited))
    floodLoop m fuel (rest ++ new) (visited ∪ new.toFinset)

/-- `floodFillVisited(mask, startX, startY, visited)`: mark the start,
then BFS over 4-connected foreground pixels. -/
def floodFillVisited (m : Grid) (startX startY : ℤ)
    (visited : Finset (ℤ × ℤ)) : Finset (ℤ × ℤ) :=
  floodLoop m (5 * (gridW m * gridH m) + 1) [(startX, startY)]
    (insert (startX, startY) visited)

/-- The body of `traceContours`' scan for one cell `(x, y)`: on an
unvisited foreground pixel, trace the boundary (backtrack direction `6`,
West), push the contour if non-empty, and flood-fill the component into
`visited`. -/
def traceCell (mask : Grid) (y x : ℕ) (st : Finset (ℤ × ℤ) × List Contour) :
    Finset (ℤ × ℤ) × List Contour :=
  if readPix mask x y = 1 ∧ ((x : ℤ), (y : ℤ)) ∉ st.1 then
    (floodFillVisited mask x y st.1,
      if 0 < (mooreNeighborTrace mask x y st.1 6).length then
        st.2 ++ [{ points := mooreNeighborTrace mask x y st.1 6, isHole := false }]
      else st.2)
  else st

/-- `traceContours(mask)`: row-major scan with visited bookkeeping. -/
def traceContours (mask : Grid) : List Contour :=
  ((List.range (gridH mask)).foldl
    (fun st y => (List.range (gridW mask)).foldl (fun st2 x => traceCell mask y x st2) st)
    (∅, [])).2

/-! ## Step 2: color quantization (`step2_quantize.js`)

`Math.random()` becomes an oracle `rand : ℕ → ℕ` consumed at an
incrementing counter; a draw of `Math.floor(Math.random() * len)` is
modelled as `rand k % len`. -/

/-- An integer RGB triple. -/
structure RGB where
  r : ℕ
  g : ℕ
  b : ℕ
deriving DecidableEq, Repr

/-- The decoded pixel buffer: width, height and the flat RGBA byte list. -/
structure PixelData where
  width : ℕ
  height : ℕ
  pixels : List ℕ
deriving DecidableEq, Repr

/-- `pixels[i]` (JS `undefined` modelled as `0`). -/
def pixAt (pixels : List ℕ) (i : ℕ) : ℕ := pixels.getD i 0

/-- The `(r, g, b)` sample at pixel index `idx`. -/
def colorAt (pixels : List ℕ) (idx : ℕ) : RGB :=
  ⟨pixAt pixels (idx * 4), pixAt pixels (idx * 4 + 1), pixAt pixels (idx * 4 + 2)⟩

/-- The distinct-seed sampling loop (`while centers.length < colorCount
&& attempts < 1000`); `seenColors` is exactly the set of pushed centers.
Returns the centers and the advanced random counter. -/
def initLoop (pixels : List ℕ) (valid : List ℕ) (colorCount : ℕ) (rand : ℕ → ℕ) :
    ℕ → ℕ → List RGB → List RGB × ℕ
  | 0, k, centers => (centers, k)
  | na + 1, k, centers =>
    if centers.length < colorCount then
      if colorAt pixels (valid.getD (rand k % valid.length) 0) ∈ centers then
        initLoop pixels valid colorCount rand na (k + 1) centers
      else
        initLoop pixels valid colorCount rand na (k + 1)
          (centers ++ [colorAt pixels (valid.getD (rand k % valid.length) 0)])
    else (centers, k)

/-- The duplicate-allowing fill loop (`while centers.length < colorCount`),
fuelled by the number of missing centers since each pass pushes one. -/
def fillLoop (pixels : List ℕ) (valid : List ℕ) (rand : ℕ → ℕ) :
    ℕ → ℕ → List RGB → List RGB
  | 0, _, centers => centers
  | need + 1, k, centers =>
    fillLoop pixels valid rand need (k + 1)
      (centers ++ [colorAt pixels (valid.getD (rand k % valid.length) 0)])

/-- One k-means cluster accumulator (`{points, sumR, sumG, sumB}`). -/
structure Cluster where
  points : List (ℕ × ℕ)
  sumR : ℕ
  sumG : ℕ
  sumB : ℕ
deriving DecidableEq, Repr

/-- The closest-center search (first strict minimum of squared RGB
distance; `minDist` starts at `Infinity`, modelled by the `none` state). -/
def bestCenter (centers : List RGB) (colorCount : ℕ) (c : RGB) : ℕ :=
  match (List.range colorCount).foldl
    (fun st cIdx =>
      match st with
      | none => some (cIdx,
          ((c.r : ℤ) - (centers.getD cIdx ⟨0,0,0⟩).r) *
            ((c.r : ℤ) - (centers.getD cIdx ⟨0,0,0⟩).r) +
          ((c.g : ℤ) - (centers.getD cIdx ⟨0,0,0⟩).g) *
            ((c.g : ℤ) - (centers.getD cIdx ⟨0,0,0⟩).g) +
          ((c.b : ℤ) - (centers.getD cIdx ⟨0,0,0⟩).b) *
            ((c.b : ℤ) - (centers.getD cIdx ⟨0,0,0⟩).b))
      | some (bi, bd) =>
        if ((c.r : ℤ) - (centers.getD cIdx ⟨0,0,0⟩).r) *
              ((c.r : ℤ) - (centers.getD cIdx ⟨0,0,0⟩).r) +
            ((c.g : ℤ) - (centers.getD cIdx ⟨0,0,0⟩).g) *
              ((c.g : ℤ) - (centers.getD cIdx ⟨0,0,0⟩).g) +
            ((c.b : ℤ) - (centers.getD cIdx ⟨0,0,0⟩).b) *
              ((c.b : ℤ) - (centers.getD cIdx ⟨0,0,0⟩).b) < bd then
          some (cIdx,
            ((c.r : ℤ) - (centers.getD cIdx ⟨0,0,0⟩).r) *
              ((c.r : ℤ) - (centers.getD cIdx ⟨0,0,0⟩).r) +
            ((c.g : ℤ) - (centers.getD cIdx ⟨0,0,0⟩).g) *
              ((c.g : ℤ) - (centers.getD cIdx ⟨0,0,0⟩).g) +
            ((c.b : ℤ) - (centers.getD cIdx ⟨0,0,0⟩).b) *
              ((c.b : ℤ) - (centers.getD cIdx ⟨0,0,0⟩).b))
        else some (bi, bd)) none with
  | none => 0
  | some (bi, _) => bi

/-- One k-means assignment pass: push every valid pixel into the cluster
of its closest center. -/
def assignClusters (pixels : List ℕ) (valid : List ℕ) (centers : List RGB)
    (colorCount width : ℕ) : List Cluster :=
  valid.foldl
    (fun clusters pIdx =>
      clusters.set (bestCenter centers colorCount (colorAt pixels pIdx))
        { points := (clusters.getD (bestCenter centers colorCount (colorAt pixels pIdx))
            ⟨[], 0, 0, 0⟩).points ++ [(pIdx % width, pIdx / width)],
          sumR := (clusters.getD (bestCenter centers colorCount (colorAt pixels pIdx))
            ⟨[], 0, 0, 0⟩).sumR + (colorAt pixels pIdx).r,
          sumG := (clusters.getD (bestCenter centers colorCount (colorAt pixels pIdx))
            ⟨[], 0, 0, 0⟩).sumG + (colorAt pixels pIdx).g,
          sumB := (clusters.getD (bestCenter centers colorCount (colorAt pixels pIdx))
            ⟨[], 0, 0, 0⟩).sumB + (colorAt pixels pIdx).b })
    (List.replicate colorCount ⟨[], 0, 0, 0⟩)

/-- The center update pass (`Math.floor(sum / count)` is `ℕ` division;
empty clusters keep their center). -/
def updateCenters (centers : List RGB) (clusters : List Cluster) (colorCount : ℕ) :
    List RGB :=
  (List.range colorCount).foldl
    (fun cs cIdx =>
      if 0 < (clusters.getD cIdx ⟨[], 0, 0, 0⟩).points.length then
        cs.set cIdx
          ⟨(clusters.getD cIdx ⟨[], 0, 0, 0⟩).sumR /
              (clusters.getD cIdx ⟨[], 0, 0, 0⟩).points.length,
           (clusters.getD cIdx ⟨[], 0, 0, 0⟩).sumG /
              (clusters.getD cIdx ⟨[], 0, 0, 0⟩).points.length,
           (clusters.getD cIdx ⟨[], 0, 0, 0⟩).sumB /
              (clusters.getD cIdx ⟨[], 0, 0, 0⟩).points.length⟩
      else cs)
    centers

/-- A color layer: a center color plus its assigned pixel coordinates. -/
structure Layer where
  color : RGB
  points : List (ℕ × ℕ)
deriving DecidableEq, Repr

/-- `quantizeImage(pixelData, colorCount)`: k-means over the visible
pixels (`alpha > 20`), 3 assignment/update iterations, empty clusters
dropped; an image with no visible pixel yields the empty layer list. -/
def quantizeImage (pd : PixelData) (colorCount : ℕ) (rand : ℕ → ℕ) : List Layer :=
  let validPixelIndices :=
    (List.range (pd.width * pd.height)).filter (fun i => 20 < pixAt pd.pixels (i * 4 + 3))
  if validPixelIndices.length = 0 then []
  else
    let init := initLoop pd.pixels validPixelIndices colorCount rand 1000 0 []
    let centers0 := fillLoop pd.pixels validPixelIndices rand
      (colorCount - init.1.length) init.2 init.1
    let c1 := assignClusters pd.pixels validPixelIndices centers0 colorCount pd.width
    let centers1 := updateCenters centers0 c1 colorCount
    let c2 := assignClusters pd.pixels validPixelIndices centers1 colorCount pd.width
    let centers2 := updateCenters centers1 c2 colorCount
    let c3 := assignClusters pd.pixels validPixelIndices centers2 colorCount pd.width
    let centers3 := updateCenters centers2 c3 colorCount
    ((List.range colorCount).map (fun idx =>
      Layer.mk (centers3.getD idx ⟨0, 0, 0⟩) ((c3.getD idx ⟨[], 0, 0, 0⟩).points)
      )).filter (fun l => 0 < l.points.length)

/-- `layerToMask(layerPoints, width, height)`. -/
def layerToMask (layerPoints : List (ℕ × ℕ)) (width height : ℕ) : Grid :=
  layerPoints.foldl (fun m p => setPix m (p.1 : ℤ) (p.2 : ℤ) 1) (zeroGrid height width)

/-- The coverage mask of `main`: `1` exactly where `alpha > 20`
(the source's scatter loop touches every cell once, written here as the
equivalent per-cell comprehension). -/
def coverageMaskOf (pd : PixelData) : Grid :=
  (List.range pd.height).map (fun y =>
    (List.range pd.width).map (fun x =>
      if 20 < pixAt pd.pixels ((y * pd.width + x) * 4 + 3) then 1 else 0))

/-- A rectangular `h × w` grid (what the source's fresh output buffers are). -/
def Rect (g : Grid) (h w : ℕ) : Prop := g.length = h ∧ ∀ r ∈ g, r.length = w

/-! ## Step 4: Douglas-Peucker simplification (`step4_simplification.js`)

JS float arithmetic is modelled exactly over `ℚ`.  The source compares
perpendicular distances `d = |num| / √den` (with `d = 0` when `den = 0`);
within one scan `den` is fixed, so all its comparisons are embedded
square-free: two distances compare as their `num²`, and `d > tol`
becomes `tol < 0 ∨ tol²·den < num²`. -/

/-- A geometric point (JS `{x, y}` with float coordinates). -/
structure Pt where
  x : ℚ
  y : ℚ
deriving DecidableEq, Repr

/-- `points[i]` (every use in the source is in range). -/
def pget (l : List Pt) (i : ℕ) : Pt := l.getD i ⟨0, 0⟩

/-- `perpendicularDistance`'s `denominator²`: `(y2-y1)² + (x2-x1)²`. -/
def pdDen (lineStart lineEnd : Pt) : ℚ :=
  (lineEnd.y - lineStart.y) * (lineEnd.y - lineStart.y) +
    (lineEnd.x - lineStart.x) * (lineEnd.x - lineStart.x)

/-- `perpendicularDistance`'s `numerator` before the absolute value:
`(y2-y1)·x - (x2-x1)·y + x2·y1 - y2·x1`. -/
def pdNum (point lineStart lineEnd : Pt) : ℚ :=
  (lineEnd.y - lineStart.y) * point.x - (lineEnd.x - lineStart.x) * point.y +
    lineEnd.x * lineStart.y - lineEnd.y * lineStart.x

/-- Square-free stand-in for `perpendicularDistance`: the value
`den · d²` (`0` for the source's degenerate `den = 0` early return),
which compares the same way as `d` for a fixed chord. -/
def pdSq (point lineStart lineEnd : Pt) : ℚ :=
  if pdDen lineStart lineEnd = 0 then 0
  else pdNum point lineStart lineEnd * pdNum point lineStart lineEnd

/-- The scan of `simplifyPath` for the farthest interior point: walks
`i = 1 .. length-2` carrying `(index, maxDistance)` (distances as `pdSq`),
updating on strict increase — so it lands on the *first* maximiser. -/
def scanMax (pts : List Pt) : ℕ × ℚ :=
  (List.range' 1 (pts.length - 2)).foldl
    (fun st i =>
      if st.2 < pdSq (pget pts i) (pget pts 0) (pget pts (pts.length - 1)) then
        (i, pdSq (pget pts i) (pget pts 0) (pget pts (pts.length - 1)))
      else st)
    (0, 0)

/-- `maxDistance > tolerance` in square-free form (`maxSq = den · maxDistance²`). -/
def exceedsTol (maxSq den tol : ℚ) : Prop := tol < 0 ∨ tol * tol * den < maxSq

instance (maxSq den tol : ℚ) : Decidable (exceedsTol maxSq den tol) := by
  unfold exceedsTol
  infer_instance

/-- `simplifyPath`, fuelled: the source's recursion always strictly
decreases the point count except when the split index is `0` (all
interior distances zero with a negative tolerance), where the JS
recurses on the whole list forever — fuel `length + 1` therefore renders
exactly the source's partial behaviour, `none` marking divergence. -/
def simplifyF (tol : ℚ) : ℕ → List Pt → Option (List Pt)
  | 0, _ => none
  | fuel+1, points =>
    if points.length < 3 then some points
    else
      if exceedsTol (scanMax points).2
          (pdDen (pget points 0) (pget points (points.length - 1))) tol then
        match simplifyF tol fuel (points.take ((scanMax points).1 + 1)),
            simplifyF tol fuel (points.drop (scanMax points).1) with
        | some leftPath, some rightPath => some (leftPath.dropLast ++ rightPath)
        | _, _ => none
      else
        some [pget points 0, pget points (points.length - 1)]

/-- `simplifyPath(points, tolerance)`. -/
def simplifyPath (points : List Pt) (tolerance : ℚ) : Option (List Pt) :=
  simplifyF tolerance (points.length + 1) points

/-! ## Step 3b: coordinate smoothing (`step3b_smoothing.js`) -/

/-- One smoothing iteration: `(prev + 2·curr + next) / 4` with
wrap-around neighbours. -/
def smoothIter (points : List Pt) : List Pt :=
  (List.range points.length).map (fun i =>
    ⟨((pget points ((i + points.length - 1) % points.length)).x +
        (pget points i).x * 2 + (pget points ((i + 1) % points.length)).x) / 4,
     ((pget points ((i + points.length - 1) % points.length)).y +
        (pget points i).y * 2 + (pget points ((i + 1) % points.length)).y) / 4⟩)

/-- `smoothPoints(points, iterations)`. -/
def smoothPoints (points : List Pt) (iterations : ℕ) : List Pt :=
  if points.length < 3 then points
  else (List.range iterations).foldl (fun cur _ => smoothIter cur) points

/-! ## Step 5: curve fitting (the robust `fitCurves` module)

The module's `distance` is a Euclidean square root; every *comparison* of
it against a constant is embedded square-free over `ℚ`
(`√d > c ↔ c < 0 ∨ c² < d` and `√d < c ↔ 0 ≤ c ∧ d < c²`), keeping the
classification logic executable.  The emitted Bezier control points
genuinely divide by square roots, so curves live over `ℝ`. -/

/-- Squared `distance(p1, p2)` over the exact rationals. -/
def distanceSq (p1 p2 : Pt) : ℚ :=
  (p2.x - p1.x) * (p2.x - p1.x) + (p2.y - p1.y) * (p2.y - p1.y)

/-- `distance(p, q) > c`, square-free. -/
def distGT (p q : Pt) (c : ℚ) : Bool := decide (c < 0 ∨ c * c < distanceSq p q)

/-- `distance(p, q) < c`, square-free. -/
def distLT (p q : Pt) (c : ℚ) : Bool := decide (0 ≤ c ∧ distanceSq p q < c * c)

/-- A point with real coordinates (the curve fitter's output space). -/
structure PtR where
  x : ℝ
  y : ℝ

/-- Cast a rational point into the reals. -/
noncomputable def toR (p : Pt) : PtR := ⟨(p.x : ℝ), (p.y : ℝ)⟩

/-- The source's `distance`: `√((x2-x1)² + (y2-y1)²)`. -/
noncomputable def distance (p1 p2 : PtR) : ℝ :=
  Real.sqrt ((p2.x - p1.x) ^ 2 + (p2.y - p1.y) ^ 2)

/-- `safeNormalize(v)`: the zero vector for lengths below `1e-9`,
otherwise `v` divided by its length. -/
noncomputable def safeNormalize (v : PtR) : PtR :=
  if Real.sqrt (v.x * v.x + v.y * v.y) < (1 / 1000000000 : ℝ) then ⟨0, 0⟩
  else ⟨v.x / Real.sqrt (v.x * v.x + v.y * v.y), v.y / Real.sqrt (v.x * v.x + v.y * v.y)⟩

/-- The vector `q - p` as a real point (an argument to `safeNormalize`). -/
noncomputable def vecR (p q : Pt) : PtR := ⟨((q.x - p.x : ℚ) : ℝ), ((q.y - p.y : ℚ) : ℝ)⟩

/-- The dot product of two real vectors. -/
noncomputable def dotR (u v : PtR) : ℝ := u.x * v.x + u.y * v.y

/-- `isCorner(prev, curr, next)`: unconditionally a corner when a
neighbour is absent (`!prev || !next`); *not* a corner when an adjacent
edge is degenerately short (`distance < 0.1` — the "safety check for
duplicates"); otherwise a corner iff the dot product of the *unit* edge
vectors is `< 0.2`, embedded square-free:
`u₁·u₂ < 1/5 ↔ v₁·v₂ < 0 ∨ 25(v₁·v₂)² < |v₁|²|v₂|²`
(equivalence proved in `C4_corner_rule`). -/
def isCorner (prev : Option Pt) (curr : Pt) (next : Option Pt) : Bool :=
  match prev, next with
  | none, _ => true
  | _, none => true
  | some p, some n =>
    if distLT p curr (1/10) ∨ distLT curr n (1/10) then false
    else
      decide (((curr.x - p.x) * (n.x - curr.x) + (curr.y - p.y) * (n.y - curr.y)) < 0 ∨
        25 * (((curr.x - p.x) * (n.x - curr.x) + (curr.y - p.y) * (n.y - curr.y)) *
              ((curr.x - p.x) * (n.x - curr.x) + (curr.y - p.y) * (n.y - curr.y))) <
          distanceSq p curr * distanceSq curr n)

/-- `filterDuplicates(points, threshold)`: drop sequential points closer
than the threshold, then re-close an originally closed run if the
cleaning broke exact closure. -/
def filterDuplicates (points : List Pt) (threshold : ℚ) : List Pt :=
  if points.length < 2 then points
  else
    let base := (points.drop 1).foldl
      (fun result curr =>
        if distGT (pget result (result.length - 1)) curr threshold then result ++ [curr]
        else result)
      [pget points 0]
    if 2 < points.length then
      if pget points 0 = pget points (points.length - 1) then
        if distGT (pget base 0) (pget base (base.length - 1)) threshold then
          base ++ [pget base 0]
        else base
      else base
    else base

/-- A cubic Bezier segment `{p0, p1, p2, p3}`. -/
structure Curve where
  p0 : PtR
  p1 : PtR
  p2 : PtR
  p3 : PtR

/-- One iteration of `fitCurves`'s segment loop, for index `i`
(`none` models the `continue` on a degenerately short segment). -/
noncomputable def fitSeg (clean : List Pt) (isClosed : Bool) (i : ℕ) : Option Curve :=
  if distLT (pget clean i) (pget clean (i + 1)) (1/10) then none
  else
    let p0 := pget clean i
    let p3 := pget clean (i + 1)
    let prev := if i = 0 then (if isClosed then pget clean (clean.length - 2) else p0)
                else pget clean (i - 1)
    let next := if i + 1 = clean.length - 1 then (if isClosed then pget clean 1 else p3)
                else pget clean (i + 2)
    let p0IsCorner := isCorner (some prev) p0 (some p3)
    let p3IsCorner := isCorner (some p0) p3 (some next)
    let tangent1 := if p0IsCorner then safeNormalize (vecR p0 p3)
                    else safeNormalize (vecR prev p3)
    let tangent2 := if p3IsCorner then safeNormalize (vecR p3 p0)
                    else safeNormalize (vecR next p0)
    let dist := distance (toR p0) (toR p3)
    let maxLen := dist * (4/10)
    let len1 := if p0IsCorner then min (dist * (1/10)) maxLen
                else min (dist * (33/100)) maxLen
    let len2 := if p3IsCorner then min (dist * (1/10)) maxLen
                else min (dist * (33/100)) maxLen
    some { p0 := toR p0,
           p1 := ⟨(p0.x : ℝ) + tangent1.x * len1, (p0.y : ℝ) + tangent1.y * len1⟩,
           p2 := ⟨(p3.x : ℝ) + tangent2.x * len2, (p3.y : ℝ) + tangent2.y * len2⟩,
           p3 := toR p3 }

/-- `fitCurves(points)`: sanitize with `filterDuplicates(·, 1.0)`, then
fit one cubic per consecutive pair, skipping pairs closer than `0.1`. -/
noncomputable def fitCurves (points : List Pt) : List Curve :=
  let cleanPoints := filterDuplicates points 1
  if cleanPoints.length < 2 then []
  else
    (List.range (cleanPoints.length - 1)).filterMap
      (fitSeg cleanPoints
        (decide (pget cleanPoints 0 = pget cleanPoints (cleanPoints.length - 1))))

/-! ## Orchestrator helpers (`main.js`) -/

/-- The shoelace accumulation loop of `getPolygonArea`:
`area += x_i·y_j - x_j·y_i` over `j = (i+1) % length`, then `|area| / 2`. -/
def getPolygonArea (points : List Pt) : ℚ :=
  |(List.range points.length).foldl
      (fun area i =>
        area + (pget points i).x * (pget points ((i + 1) % points.length)).y
             - (pget points ((i + 1) % points.length)).x * (pget points i).y)
      0| / 2

/-- The cyclic signed shoelace sum, in closed form (the quantity the
specification calls the signed area, before `getPolygonArea` takes its
absolute value and halves it). -/
def shoelaceSum (points : List Pt) : ℚ :=
  ∑ i ∈ Finset.range points.length,
    ((pget points i).x * (pget points ((i + 1) % points.length)).y -
     (pget points ((i + 1) % points.length)).x * (pget points i).y)

/-- `Pix → Pt` (integer contour points entering the float stages). -/
def pixToPt (p : Pix) : Pt := ⟨(p.x : ℚ), (p.y : ℚ)⟩

/-- `simplifyPath` as the pipeline calls it (total: the fuelled embedding
only returns `none` on inputs where the JS recursion diverges, which
cannot happen at the pipeline's tolerance `1.0 ≥ 0`). -/
def simplifyPathRun (points : List Pt) (tolerance : ℚ) : List Pt :=
  (simplifyPath points tolerance).getD points

/-- An assembled shape: curves, fill color, area tag and hole flag. -/
structure Shape where
  curves : List Curve
  fillColor : RGB
  area : ℚ
  isHole : Bool

/-- `main`'s per-layer stage chain: mask → hybrid dilation (1 pass each)
→ contour tracing → area filter (`minArea = 10`) → smoothing (1
iteration) → simplification (`ε = 1.0`) → curve fitting. -/
noncomputable def layerShapes (pd : PixelData) (coverage : Grid) (layer : Layer) :
    List Shape :=
  (traceContours (dilateHybrid (layerToMask layer.points pd.width pd.height) coverage 1 1)).filterMap
    (fun contour =>
      if getPolygonArea (contour.points.map pixToPt) < 10 then none
      else some
        { curves := fitCurves (simplifyPathRun (smoothPoints (contour.points.map pixToPt) 1) 1),
          fillColor := layer.color,
          area := getPolygonArea (contour.points.map pixToPt),
          isHole := contour.isHole })

/-- The final sort: stable, by descending area (`(a, b) => b.area - a.area`). -/
noncomputable def sortShapes (shapes : List Shape) : List Shape :=
  shapes.mergeSort (fun a b => decide (b.area ≤ a.area))

/-- The assembler (`main`, minus file I/O and logging): quantize with
`colorCount = 16`, process each layer, concatenate and sort. -/
noncomputable def mainShapes (pd : PixelData) (rand : ℕ → ℕ) : List Shape :=
  sortShapes ((quantizeImage pd 16 rand).foldl
    (fun acc layer => acc ++ layerShapes pd (coverageMaskOf pd) layer) [])

/-! ## Connectivity (specification side, for the contour count)

The spec counts contours per connected foreground component.  These
definitions build the component structure of a mask combinatorially:
the foreground as a finite set, pixel adjacency (4- and 8-connected),
and each pixel's component as the saturation of a one-step closure. -/

/-- The in-bounds foreground pixels of a mask, as a finite set. -/
def fgSet (m : Grid) : Finset (ℤ × ℤ) :=
  ((Finset.Icc (0 : ℤ) ((gridW m : ℤ) - 1)) ×ˢ
      (Finset.Icc (0 : ℤ) ((gridH m : ℤ) - 1))).filter
    (fun p => readPix m p.1 p.2 = 1)

/-- 4-adjacency on a mask: foreground pixels sharing an edge. -/
def adj4 (m : Grid) (p q : ℤ × ℤ) : Bool :=
  decide (p ∈ fgSet m) && decide (q ∈ fgSet m) &&
    decide ((q.1 - p.1).natAbs + (q.2 - p.2).natAbs = 1)

/-- 8-adjacency on a mask: distinct foreground pixels whose coordinates
differ by at most one in each direction. -/
def adj8 (m : Grid) (p q : ℤ × ℤ) : Bool :=
  decide (p ∈ fgSet m) && decide (q ∈ fgSet m) && decide (p ≠ q) &&
    decide ((q.1 - p.1).natAbs ≤ 1) && decide ((q.2 - p.2).natAbs ≤ 1)

/-- One closure step: add every `F`-pixel adjacent to the current set. -/
def compStep (F : Finset (ℤ × ℤ)) (adj : ℤ × ℤ → ℤ × ℤ → Bool)
    (s : Finset (ℤ × ℤ)) : Finset (ℤ × ℤ) :=
  s ∪ F.filter (fun q => ∃ a ∈ s, adj a q = true)

/-- The connected component of `p`: saturate the closure step (at most
`F.card` strict growth steps are possible). -/
def compOf (F : Finset (ℤ × ℤ)) (adj : ℤ × ℤ → ℤ × ℤ → Bool)
    (p : ℤ × ℤ) : Finset (ℤ × ℤ) :=
  (compStep F adj)^[F.card] {p}

/-- The number of components of `F` under `adj`. -/
def ncomp (F : Finset (ℤ × ℤ)) (adj : ℤ × ℤ → ℤ × ℤ → Bool) : ℕ :=
  (F.image (fun p => compOf F adj p)).card

/-- Number of 4-connected foreground components of a mask. -/
def ncomp4 (m : Grid) : ℕ := ncomp (fgSet m) (adj4 m)

/-- Number of 8-connected foreground components of a mask. -/
def ncomp8 (m : Grid) : ℕ := ncomp (fgSet m) (adj8 m)

/-- Row-major rank of a pixel: the order in which `traceContours` scans. -/
def rank (w : ℕ) (p : ℤ × ℤ) : ℕ := p.2.toNat * w + p.1.toNat

/-- A BFS step allowed while `V` is already marked: a 4-adjacency step
into an unmarked pixel. -/
def avoidRel (m : Grid) (V : Finset (ℤ × ℤ)) (a b : ℤ × ℤ) : Prop :=
  adj4 m a b = true ∧ b ∉ V

/-- `p` is the row-major-first pixel of its 4-connected component. -/
def IsRowMajorMin (m : Grid) (p : ℤ × ℤ) : Prop :=
  ∀ q ∈ compOf (fgSet m) (adj4 m) p, rank (gridW m) p ≤ rank (gridW m) q

/-- The row-major scan invariant: after all cells of rank below `n` are
processed, the seeds so far are exactly the row-major-first foreground
pixels of rank below `n`, the visited set is the union of their
components, and one contour was pushed per seed. -/
def ScanInv (m : Grid) (n : ℕ) (st : Finset (ℤ × ℤ) × List Contour) : Prop :=
  ∃ seeds : Finset (ℤ × ℤ),
    (∀ p, p ∈ seeds ↔
      p ∈ fgSet m ∧ rank (gridW m) p < n ∧ IsRowMajorMin m p) ∧
    st.1 = seeds.biUnion (fun p => compOf (fgSet m) (adj4 m) p) ∧
    st.2.length = seeds.card

/-! ### Grid update lemmas -/

theorem getD_set_row (g : Grid) (i : ℕ) (r : List ℕ) (j : ℕ) :
    (g.set i r).getD j [] = if i = j ∧ i < g.length then r else g.getD j [] := by
  by_cases he : i = j
  · subst he
    by_cases hl : i < g.length
    · rw [if_pos ⟨rfl, hl⟩, List.getD_eq_getElem?_getD, List.getElem?_set_self hl]
      rfl
    · rw [if_neg (by tauto), List.set_eq_of_length_le (by omega)]
  · rw [if_neg (by tauto)]
    simp only [List.getD_eq_getElem?_getD, List.getElem?_set_ne he]

theorem getD_set_entry (row : List ℕ) (i v j : ℕ) :
    (row.set i v).getD j 0 = if i = j ∧ i < row.length then v else row.getD j 0 := by
  by_cases he : i = j
  · subst he
    by_cases hl : i < row.length
    · rw [if_pos ⟨rfl, hl⟩, List.getD_eq_getElem?_getD, List.getElem?_set_self hl]
      rfl
    · rw [if_neg (by tauto), List.set_eq_of_length_le (by omega)]
  · rw [if_neg (by tauto)]
    simp only [List.getD_eq_getElem?_getD, List.getElem?_set_ne he]

theorem setPix_length (g : Grid) (x y : ℤ) (v : ℕ) :
    (setPix g x y v).length = g.length := by
  unfold setPix
  split
  · exact List.length_set ..
  · rfl

theorem gridH_setPix (g : Grid) (x y : ℤ) (v : ℕ) :
    gridH (setPix g x y v) = gridH g := setPix_length ..

theorem gridW_setPix (g : Grid) (x y : ℤ) (v : ℕ) :
    gridW (setPix g x y v) = gridW g := by
  unfold setPix gridW
  split
  · rcases g with _ | ⟨r, rs⟩
    · simp
    · rcases hy : y.toNat with _ | n
      · simp [hy, List.set]
      · simp [hy, List.set]
  · rfl

/-- Full characterization of a read after a write. -/
theorem readPix_setPix (g : Grid) (x y nx ny : ℤ) (v : ℕ)
    (hx : 0 ≤ x) (hy : 0 ≤ y) :
    readPix (setPix g nx ny v) x y =
      if 0 ≤ nx ∧ 0 ≤ ny ∧ x.toNat = nx.toNat ∧ y.toNat = ny.toNat ∧
          ny.toNat < g.length ∧ nx.toNat < (g.getD ny.toNat []).length then v
      else readPix g x y := by
  by_cases hbig : 0 ≤ nx ∧ 0 ≤ ny ∧ x.toNat = nx.toNat ∧ y.toNat = ny.toNat ∧
      ny.toNat < g.length ∧ nx.toNat < (g.getD ny.toNat []).length
  · rw [if_pos hbig]
    obtain ⟨h1, h2, h3, h4, h5, h6⟩ := hbig
    unfold setPix readPix
    rw [if_pos ⟨hx, hy⟩, if_pos ⟨h1, h2⟩, getD_set_row, if_pos ⟨h4.symm, h5⟩,
      getD_set_entry, if_pos ⟨h3.symm, h6⟩]
  · rw [if_neg hbig]
    unfold setPix readPix
    by_cases hb : 0 ≤ nx ∧ 0 ≤ ny
    · rw [if_pos hb, if_pos ⟨hx, hy⟩, if_pos ⟨hx, hy⟩, getD_set_row]
      by_cases hyy : ny.toNat = y.toNat ∧ ny.toNat < g.length
      · rw [if_pos hyy, getD_set_entry]
        have hxx : ¬(nx.toNat = x.toNat ∧ nx.toNat < (g.getD ny.toNat []).length) := by
          intro hc
          exact hbig ⟨hb.1, hb.2, hc.1.symm, hyy.1.symm, hyy.2, hc.2⟩
        rw [if_neg hxx, hyy.1]
      · rw [if_neg hyy]
    · rw [if_neg hb]

theorem readPix_zeroGrid (h w : ℕ) (x y : ℤ) : readPix (zeroGrid h w) x y = 0 := by
  unfold readPix zeroGrid
  split
  · simp only [List.getD_eq_getElem?_getD, List.getElem?_replicate]
    by_cases hy : y.toNat < h
    · rw [if_pos hy]
      simp only [Option.getD_some]
      by_cases hx : x.toNat < w
      · simp [hx]
      · simp [hx]
    · simp [hy]
  · rfl

theorem getPix_zeroGrid (h w : ℕ) (x y : ℤ) : getPix (zeroGrid h w) x y = 0 := by
  unfold getPix
  split
  · exact readPix_zeroGrid ..
  · rfl

/-- Writing a `1` never destroys an existing `1`. -/
theorem getPix_setPix_one_mono (g : Grid) (x y nx ny : ℤ)
    (h1 : getPix g x y = 1) : getPix (setPix g nx ny 1) x y = 1 := by
  unfold getPix at h1 ⊢
  rw [gridH_setPix, gridW_setPix]
  split at h1
  · rename_i hb
    rw [if_pos hb, readPix_setPix g x y nx ny 1 hb.1 hb.2.1]
    split
    · rfl
    · exact h1
  · exact absurd h1 (by simp)

/-- A `1` read after a write was either already there or is the written cell. -/
theorem getPix_one_of_setPix (g : Grid) (x y nx ny : ℤ) (v : ℕ)
    (h1 : getPix (setPix g nx ny v) x y = 1) :
    getPix g x y = 1 ∨ (x = nx ∧ y = ny) := by
  unfold getPix at h1 ⊢
  rw [gridH_setPix, gridW_setPix] at h1
  split at h1
  · rename_i hb
    rw [readPix_setPix g x y nx ny v hb.1 hb.2.1] at h1
    rw [if_pos hb]
    split at h1
    · rename_i hcell
      right
      omega
    · exact Or.inl h1
  · exact absurd h1 (by simp)

/-- The accumulated output of `dilateCell` never loses a `1`. -/
theorem dilateCell_mono (m : Grid) (cov : Option Grid) (h w y x : ℕ) (o : Grid)
    (px py : ℤ) (h1 : getPix o px py = 1) :
    getPix (dilateCell m cov h w y x o) px py = 1 := by
  unfold dilateCell
  split
  · generalize dilateDeltas = l
    induction l generalizing o with
    | nil => simpa using h1
    | cons d rest ih =>
      simp only [List.foldl_cons]
      apply ih
      split
      · split
        · exact getPix_setPix_one_mono o px py _ _ h1
        · exact h1
      · exact h1
  · exact h1

/-- Generic preservation of an invariant along a `foldl`. -/
theorem foldl_preserve {α β : Type} (P : β → Prop) (f : β → α → β)
    (hf : ∀ b a, P b → P (f b a)) (l : List α) (b : β) (hb : P b) :
    P (l.foldl f b) := by
  induction l generalizing b with
  | nil => exact hb
  | cons a rest ih => exact ih (f b a) (hf b a hb)

/-- Generic establishment of a goal at one element of a `foldl`, with the
goal preserved afterwards. -/
theorem foldl_establish {α β : Type} (P Q : β → Prop) (f : β → α → β) (l : List α) (a₀ : α)
    (ha : a₀ ∈ l) (hPQ : ∀ b, P b → Q (f b a₀)) (hP : ∀ b a, P b → P (f b a))
    (hQ : ∀ b a, Q b → Q (f b a)) (b : β) (hb : P b) : Q (l.foldl f b) := by
  induction l generalizing b with
  | nil => cases ha
  | cons a rest ih =>
    rcases List.mem_cons.mp ha with rfl | hmem
    · exact foldl_preserve Q f hQ rest (f b a₀) (hPQ b hb)
    · exact ih hmem (f b a) (hP b a hb)

theorem rect_zeroGrid (h w : ℕ) : Rect (zeroGrid h w) h w := by
  constructor
  · exact List.length_replicate ..
  · intro r hr
    rw [List.eq_of_mem_replicate hr]
    exact List.length_replicate ..

theorem rect_setPix (g : Grid) (h w : ℕ) (x y : ℤ) (v : ℕ) (hr : Rect g h w) :
    Rect (setPix g x y v) h w := by
  unfold setPix
  split
  · by_cases hl : y.toNat < g.length
    · constructor
      · rw [List.length_set]
        exact hr.1
      · intro r hmem
        rcases List.mem_or_eq_of_mem_set hmem with hmem2 | rfl
        · exact hr.2 r hmem2
        · rw [List.length_set]
          have hrow : g.getD y.toNat [] = g[y.toNat] := by
            rw [List.getD_eq_getElem?_getD, List.getElem?_eq_getElem hl]
            rfl
          rw [hrow]
          exact hr.2 _ (List.getElem_mem hl)
    · rw [List.set_eq_of_length_le (by omega)]
      exact hr
  · exact hr

theorem rect_dims (g : Grid) (h w : ℕ) (hr : Rect g h w) (hh : 0 < h) :
    gridH g = h ∧ gridW g = w := by
  refine ⟨hr.1, ?_⟩
  unfold gridW
  rcases g with _ | ⟨r, rs⟩
  · exact absurd hr.1 (by simp; omega)
  · exact hr.2 r (List.mem_cons_self ..)

/-- Writing somewhere else preserves a zero reading. -/
theorem getPix_setPix_zero (g : Grid) (x y nx ny : ℤ) (v : ℕ)
    (h0 : getPix g x y = 0) (hne : ¬(x = nx ∧ y = ny)) :
    getPix (setPix g nx ny v) x y = 0 := by
  unfold getPix at h0 ⊢
  rw [gridH_setPix, gridW_setPix]
  split
  · rename_i hb
    rw [if_pos hb] at h0
    rw [readPix_setPix g x y nx ny v hb.1 hb.2.1]
    rw [if_neg ?hcell]
    · exact h0
    case hcell =>
      intro hc
      exact hne (by omega)
  · rfl

/-- Writing an in-range cell makes it read back as written. -/
theorem getPix_setPix_self (g : Grid) (h w : ℕ) (hr : Rect g h w) (x y : ℤ)
    (hx : 0 ≤ x) (hy : 0 ≤ y) (hxw : x < (w : ℤ)) (hyh : y < (h : ℤ)) :
    getPix (setPix g x y 1) x y = 1 := by
  have hh : 0 < h := by omega
  rcases rect_dims g h w hr hh with ⟨hH, hW⟩
  unfold getPix
  rw [gridH_setPix, gridW_setPix, hH, hW, if_pos ⟨hx, hy, hxw, hyh⟩,
    readPix_setPix g x y x y 1 hx hy]
  rw [if_pos ?hcell]
  case hcell =>
    have hyl : y.toNat < g.length := by rw [hr.1]; omega
    refine ⟨hx, hy, rfl, rfl, hyl, ?_⟩
    have hrow : g.getD y.toNat [] = g[y.toNat] := by
      rw [List.getD_eq_getElem?_getD, List.getElem?_eq_getElem hyl]
      rfl
    rw [hrow, hr.2 _ (List.getElem_mem hyl)]
    omega

/-- One `dilateCell` step preserves rectangularity of the output buffer. -/
theorem dilateCell_rect (m : Grid) (cov : Option Grid) (h w y x : ℕ) (o : Grid)
    (hr : Rect o h w) : Rect (dilateCell m cov h w y x o) h w := by
  unfold dilateCell
  split
  · apply foldl_preserve (fun o => Rect o h w) _ _ _ o hr
    intro o2 d h2
    dsimp only
    split
    · split
      · exact rect_setPix _ _ _ _ _ _ h2
      · exact h2
    · exact h2
  · exact hr

/-- Processing the cell `(x, y)` itself writes a `1` at `(x, y)` (the
`dy = dx = 0` iteration), provided the mask is set there and the coverage
check passes there. -/
theorem dilateCell_sets_self (m : Grid) (cov : Option Grid) (h w y x : ℕ) (o : Grid)
    (hrect : Rect o h w) (hm : readPix m x y = 1) (hxw : x < w) (hyh : y < h)
    (hcov : covOK cov x y = true) :
    getPix (dilateCell m cov h w y x o) (x : ℤ) (y : ℤ) = 1 := by
  unfold dilateCell
  rw [if_pos hm]
  apply foldl_establish (fun o => Rect o h w) (fun o => getPix o x y = 1) _ _ ((0 : ℤ), (0 : ℤ))
    (by unfold dilateDeltas; simp) _ _ _ o hrect
  · intro b hb
    dsimp only
    simp only [add_zero]
    rw [if_pos (show (0 : ℤ) ≤ (y : ℤ) ∧ (y : ℤ) < (h : ℤ) ∧
      (0 : ℤ) ≤ (x : ℤ) ∧ (x : ℤ) < (w : ℤ) by omega), if_pos hcov]
    exact getPix_setPix_self b h w hb x y (by omega) (by omega) (by omega) (by omega)
  · intro b a hb
    dsimp only
    split
    · split
      · exact rect_setPix _ _ _ _ _ _ hb
      · exact hb
    · exact hb
  · intro b a hb
    dsimp only
    split
    · split
      · exact getPix_setPix_one_mono _ _ _ _ _ hb
      · exact hb
    · exact hb

/-- `dilateOnce` keeps a `1` wherever the input has a `1` and the coverage
check passes at that same pixel. -/
theorem dilateOnce_superset (m : Grid) (cov : Option Grid) (x y : ℤ)
    (h1 : getPix m x y = 1) (hcov : covOK cov x y = true) :
    getPix (dilateOnce m cov) x y = 1 := by
  have hb : 0 ≤ x ∧ 0 ≤ y ∧ x < (gridW m : ℤ) ∧ y < (gridH m : ℤ) := by
    unfold getPix at h1
    by_contra hc
    rw [if_neg hc] at h1
    exact absurd h1 (by simp)
  have hread : readPix m x y = 1 := by
    unfold getPix at h1
    rwa [if_pos hb] at h1
  unfold dilateOnce
  have hxn : ((x.toNat : ℤ)) = x := Int.toNat_of_nonneg hb.1
  have hyn : ((y.toNat : ℤ)) = y := Int.toNat_of_nonneg hb.2.1
  apply foldl_establish (fun o => Rect o (gridH m) (gridW m))
    (fun o => getPix o x y = 1) _ _ y.toNat
    (List.mem_range.mpr (by omega)) _ _ _ _ (rect_zeroGrid (gridH m) (gridW m))
  · intro b hbr
    apply foldl_establish (fun o => Rect o (gridH m) (gridW m))
      (fun o => getPix o x y = 1) _ _ x.toNat
      (List.mem_range.mpr (by omega)) _ _ _ b hbr
    · intro b2 hb2
      have := dilateCell_sets_self m cov (gridH m) (gridW m) y.toNat x.toNat b2 hb2
        (by rwa [hxn, hyn]) (by omega) (by omega) (by rwa [hxn, hyn])
      rwa [hxn, hyn] at this
    · intro b2 a hb2
      exact dilateCell_rect _ _ _ _ _ _ _ hb2
    · intro b2 a hb2
      exact dilateCell_mono _ _ _ _ _ _ _ _ _ hb2
  · intro b a hbr
    exact foldl_preserve (fun o => Rect o (gridH m) (gridW m)) _
      (fun b2 a2 hb2 => dilateCell_rect _ _ _ _ _ _ _ hb2) _ b hbr
  · intro b a hbq
    exact foldl_preserve (fun o => getPix o x y = 1) _
      (fun b2 a2 hb2 => dilateCell_mono _ _ _ _ _ _ _ _ _ hb2) _ b hbq

/-- One coverage-bounded `dilateCell` step cannot write a pixel whose
coverage entry is not `1`. -/
theorem dilateCell_coverage_zero (m c : Grid) (h w y x : ℕ) (o : Grid) (px py : ℤ)
    (hc0 : readPix c px py ≠ 1) (h0 : getPix o px py = 0) :
    getPix (dilateCell m (some c) h w y x o) px py = 0 := by
  unfold dilateCell
  split
  · apply foldl_preserve (fun o => getPix o px py = 0) _ _ _ o h0
    intro o2 d h2
    dsimp only
    split
    · split
      · rename_i hcov
        apply getPix_setPix_zero _ _ _ _ _ _ h2
        rintro ⟨hex, hey⟩
        rw [← hex, ← hey] at hcov
        simp only [covOK, beq_iff_eq] at hcov
        exact hc0 hcov
      · exact h2
    · exact h2
  · exact h0

/-- `dilateOnce` with a coverage mask leaves every pixel whose coverage
entry is not `1` at `0`. -/
theorem dilateOnce_coverage_zero (m c : Grid) (x y : ℤ)
    (hc0 : readPix c x y ≠ 1) : getPix (dilateOnce m (some c)) x y = 0 := by
  unfold dilateOnce
  apply foldl_preserve (fun o => getPix o x y = 0) _ _ _ _ (getPix_zeroGrid _ _ x y)
  intro b a hb
  exact foldl_preserve (fun o => getPix o x y = 0) _
    (fun b2 a2 hb2 => dilateCell_coverage_zero _ _ _ _ _ _ _ _ _ hc0 hb2) _ b hb

/-- **C1** (counterexample): a coverage-bounded pass cleans every pixel
outside the coverage mask, so dilation is *not* a superset of its input
for arbitrary mask/coverage pairs: on the 1×1 mask `[[1]]` with coverage
`[[0]]` the input pixel `(0,0)` is `1` but `dilateHybrid`'s output (and
the smart `dilateOnce` pass it runs) is `0` there. -/
theorem C1_not_superset_cex :
    readPix [[1]] 0 0 = 1 ∧ getPix (dilateHybrid [[1]] [[0]] 1 1) 0 0 = 0 ∧
      getPix (dilateOnce [[1]] (some [[0]])) 0 0 = 0 := by decide

/-- **C1** (amended): dilation output is a superset of its input at every
pixel allowed by the coverage rule: an unconditional `dilateOnce` pass
keeps every input `1`; a coverage-bounded pass keeps every input `1`
whose own coverage entry is `1`; and `dilateHybrid` keeps every input `1`
whose coverage entry is `1` — in particular it is a superset of the input
whenever the input mask lies inside the coverage mask, which is how the
pipeline invokes it. -/
theorem C1_dilation_superset (m c : Grid) (u s : ℕ) (x y : ℤ)
    (h1 : getPix m x y = 1) :
    getPix (dilateOnce m none) x y = 1 ∧
    (readPix c x y = 1 → getPix (dilateOnce m (some c)) x y = 1) ∧
    (readPix c x y = 1 → getPix (dilateHybrid m c u s) x y = 1) := by
  refine ⟨dilateOnce_superset m none x y h1 rfl, ?_, ?_⟩
  · intro hc
    exact dilateOnce_superset m (some c) x y h1 (by simp [covOK, hc])
  · intro hc
    unfold dilateHybrid
    apply foldl_preserve (fun r => getPix r x y = 1) _ ?hsmart
    · apply foldl_preserve (fun r => getPix r x y = 1) _ ?huncond _ _ h1
      case huncond =>
        intro b a hb
        exact dilateOnce_superset b none x y hb rfl
    case hsmart =>
      intro b a hb
      exact dilateOnce_superset b (some c) x y hb (by simp [covOK, hc])

/-- **C1** (witness): the amended superset theorem at a concrete instance
(2×1 mask inside its coverage). -/
theorem C1_dilation_superset_witness :
    getPix [[1, 0]] 0 0 = 1 ∧
      (getPix (dilateOnce [[1, 0]] none) 0 0 = 1 ∧
       (readPix [[1, 1]] 0 0 = 1 → getPix (dilateOnce [[1, 0]] (some [[1, 1]])) 0 0 = 1) ∧
       (readPix [[1, 1]] 0 0 = 1 → getPix (dilateHybrid [[1, 0]] [[1, 1]] 1 1) 0 0 = 1)) :=
  ⟨by decide, C1_dilation_superset [[1, 0]] [[1, 1]] 1 1 0 0 (by decide)⟩

/-- **C5** (confirmed): a coverage-bounded dilation pass never sets a pixel
outside the coverage mask: if `C[y][x] = 0` then `dilateOnce(M, C)` reads
`0` at `(x, y)`, and consequently the output of `dilateHybrid` (whose last
pass is coverage-bounded whenever `smartPasses ≥ 1`) also reads `0` there. -/
theorem C5_coverage_bound (m c : Grid) (u s : ℕ) (x y : ℤ)
    (h0 : readPix c x y = 0) :
    getPix (dilateOnce m (some c)) x y = 0 ∧
    (1 ≤ s → getPix (dilateHybrid m c u s) x y = 0) := by
  have hne : readPix c x y ≠ 1 := by omega
  refine ⟨dilateOnce_coverage_zero m c x y hne, ?_⟩
  intro hs
  unfold dilateHybrid
  rcases Nat.exists_eq_add_of_le hs with ⟨k, rfl⟩
  rw [add_comm, List.range_succ, List.foldl_append]
  exact dilateOnce_coverage_zero _ c x y hne

/-- **C5** (witness): the coverage bound at a concrete instance. -/
theorem C5_coverage_bound_witness :
    readPix [[1, 0]] 1 0 = 0 ∧
      (getPix (dilateOnce [[1, 1]] (some [[1, 0]])) 1 0 = 0 ∧
       (1 ≤ 1 → getPix (dilateHybrid [[1, 1]] [[1, 0]] 1 1) 1 0 = 0)) :=
  ⟨by decide, C5_coverage_bound [[1, 1]] [[1, 0]] 1 1 1 0 (by decide)⟩

/-- Every point pushed inside the walk loop differs from the start pixel
(the `closed` check fires before the push). -/
theorem traceLoopK_ne_start (m : Grid) (sx sy : ℤ) :
    ∀ fuel (cx cy : ℤ) (d : ℕ) (p : Pix),
      p ∈ (traceLoopK m sx sy fuel cx cy d).1 → p ≠ ⟨sx, sy⟩ := by
  intro fuel
  induction fuel with
  | zero =>
    intro cx cy d p hp
    simp [traceLoopK] at hp
  | succ n ih =>
    intro cx cy d p hp
    unfold traceLoopK at hp
    rcases hfind : findNext m cx cy d with _ | checkDir
    · rw [hfind] at hp
      simp at hp
    · rw [hfind] at hp
      dsimp only at hp
      split at hp
      · simp at hp
      · rename_i hne
        rcases List.mem_cons.mp hp with rfl | hmem
        · intro hc
          exact hne (by injection hc with h1 h2; exact ⟨h1, h2⟩)
        · exact ih _ _ _ p hmem

/-- The walk pushes at most one point per loop iteration. -/
theorem traceLoopK_length_le (m : Grid) (sx sy : ℤ) :
    ∀ fuel (cx cy : ℤ) (d : ℕ),
      (traceLoopK m sx sy fuel cx cy d).1.length ≤ fuel := by
  intro fuel
  induction fuel with
  | zero =>
    intro cx cy d
    simp [traceLoopK]
  | succ n ih =>
    intro cx cy d
    unfold traceLoopK
    rcases hfind : findNext m cx cy d with _ | checkDir
    · simp
    · dsimp only
      split
      · simp
      · simpa using ih _ _ _

/-- If no compass neighbour of the current pixel is foreground, the scan
finds nothing. -/
theorem findNext_none (m : Grid) (cx cy : ℤ) (d : ℕ)
    (h : ∀ dd ∈ traceDirs, getPix m (cx + dd.1) (cy + dd.2) ≠ 1) :
    findNext m cx cy d = none := by
  unfold findNext
  rw [List.findSome?_eq_none_iff]
  intro i _
  rw [if_neg]
  intro hc
  obtain ⟨h1, h2, h3, h4, h5⟩ := hc
  have hdmem : traceDirs.getD ((d + i) % 8) (0, 0) ∈ traceDirs := by
    have hlt : (d + i) % 8 < traceDirs.length := by
      have := Nat.mod_lt (d + i) (y := 8) (by omega)
      simpa [traceDirs] using this
    rw [List.getD_eq_getElem?_getD, List.getElem?_eq_getElem hlt]
    exact List.getElem_mem hlt
  apply h _ hdmem
  unfold getPix
  rw [if_pos ⟨h1, h2, h3, h4⟩]
  exact h5

/-- **C3** (counterexample): a walk that closes on its start does *not*
repeat the first point at the end: on the mask `[[1,1]]`, the walk from
`(0,0)` terminates `closed`, yet the contour is `[(0,0),(1,0)]`, whose
first and last points differ. -/
theorem C3_closed_not_repeated_cex :
    (mooreNeighborTraceFull [[1, 1]] 0 0 6).2 = TermKind.closed ∧
    (mooreNeighborTraceFull [[1, 1]] 0 0 6).1 = [⟨0, 0⟩, ⟨1, 0⟩] ∧
    ([(⟨0, 0⟩ : Pix), ⟨1, 0⟩].head? ≠ [(⟨0, 0⟩ : Pix), ⟨1, 0⟩].getLast?) := by
  decide

/-- **C3** (amended): every contour returned by the boundary walk — in
particular one whose walk terminates by returning to its exact start
pixel — begins at the start pixel and never repeats it: the start is not
re-appended on closing, so the first point equals the last only in the
degenerate single-point case. -/
theorem C3_start_point_unique (m : Grid) (sx sy : ℤ)
    (v : Finset (ℤ × ℤ)) (d : ℕ) :
    (mooreNeighborTrace m sx sy v d).head? = some ⟨sx, sy⟩ ∧
    (⟨sx, sy⟩ : Pix) ∉ (mooreNeighborTrace m sx sy v d).tail := by
  constructor
  · rfl
  · intro hc
    exact traceLoopK_ne_start m sx sy _ _ _ _ _ hc rfl

/-- **C8** (confirmed): the boundary walk always terminates — it is
bounded by the `MAX_LOOP` iteration cap, so any contour has between `1`
and `MAX_LOOP + 1` points — and tracing a pixel with no foreground
compass neighbour terminates degenerately with the one-point contour
`[(startX, startY)]` (length ≥ 1). -/
theorem C8_trace_terminates (m : Grid) (sx sy : ℤ)
    (v : Finset (ℤ × ℤ)) (d : ℕ) :
    1 ≤ (mooreNeighborTrace m sx sy v d).length ∧
    (mooreNeighborTrace m sx sy v d).length ≤ MAX_LOOP + 1 ∧
    ((∀ dd ∈ traceDirs, getPix m (sx + dd.1) (sy + dd.2) ≠ 1) →
      mooreNeighborTrace m sx sy v d = [⟨sx, sy⟩]) := by
  refine ⟨by simp [mooreNeighborTrace, mooreNeighborTraceFull], ?_, ?_⟩
  · have := traceLoopK_length_le m sx sy MAX_LOOP sx sy d
    simp only [mooreNeighborTrace, mooreNeighborTraceFull, List.length_cons]
    omega
  · intro hiso
    have hnone := findNext_none m sx sy d hiso
    unfold mooreNeighborTrace mooreNeighborTraceFull
    unfold MAX_LOOP traceLoopK
    rw [hnone]

/-- **C8** (witness): tracing the single isolated centre pixel of a 3×3
mask terminates with the one-point contour. -/
theorem C8_trace_terminates_witness :
    (∀ dd ∈ traceDirs, getPix [[0,0,0],[0,1,0],[0,0,0]] (1 + dd.1) (1 + dd.2) ≠ 1) ∧
    mooreNeighborTrace [[0,0,0],[0,1,0],[0,0,0]] 1 1 ∅ 6 = [⟨1, 1⟩] :=
  ⟨by decide, (C8_trace_terminates [[0,0,0],[0,1,0],[0,0,0]] 1 1 ∅ 6).2.2 (by decide)⟩

/-! ### Polygon area -/

theorem foldl_range_add (f : ℕ → ℚ) (n : ℕ) (init : ℚ) :
    (List.range n).foldl (fun a i => a + f i) init = init + ∑ i ∈ Finset.range n, f i := by
  induction n with
  | zero => simp
  | succ k ih =>
    rw [List.range_succ, List.foldl_append, ih, Finset.sum_range_succ]
    simp [add_assoc]

/-! ### Simplification: the farthest-point scan -/

theorem pget_take (l : List Pt) (k t : ℕ) (h : t < k) : pget (l.take k) t = pget l t := by
  unfold pget
  rw [List.getD_eq_getElem?_getD, List.getD_eq_getElem?_getD, List.getElem?_take_of_lt h]

theorem pget_drop (l : List Pt) (k t : ℕ) : pget (l.drop k) t = pget l (k + t) := by
  unfold pget
  by_cases h : k + t < l.length
  · rw [List.getD_eq_getElem?_getD, List.getD_eq_getElem?_getD,
      List.getElem?_eq_getElem (by simp only [List.length_drop]; omega),
      List.getElem?_eq_getElem h]
    simp [List.getElem_drop]
  · rw [List.getD_eq_getElem?_getD, List.getD_eq_getElem?_getD,
      List.getElem?_eq_none (by simp only [List.length_drop]; omega),
      List.getElem?_eq_none (by omega)]

theorem pget_append_left (l₁ l₂ : List Pt) (t : ℕ) (h : t < l₁.length) :
    pget (l₁ ++ l₂) t = pget l₁ t := by
  unfold pget
  rw [List.getD_eq_getElem?_getD, List.getD_eq_getElem?_getD, List.getElem?_append_left h]

theorem pget_append_right (l₁ l₂ : List Pt) (t : ℕ) (h : l₁.length ≤ t) :
    pget (l₁ ++ l₂) t = pget l₂ (t - l₁.length) := by
  unfold pget
  rw [List.getD_eq_getElem?_getD, List.getD_eq_getElem?_getD, List.getElem?_append_right h]

theorem pget_dropLast (l : List Pt) (t : ℕ) (h : t + 1 < l.length) :
    pget l.dropLast t = pget l t := by
  unfold pget
  rw [List.getD_eq_getElem?_getD, List.getD_eq_getElem?_getD, List.getElem?_dropLast,
    if_pos (by omega)]

theorem dropLast_append_pget_last (l : List Pt) (h : l ≠ []) :
    l.dropLast ++ [pget l (l.length - 1)] = l := by
  have hg : pget l (l.length - 1) = l.getLast h := by
    rw [List.getLast_eq_getElem]
    unfold pget
    rw [List.getD_eq_getElem?_getD, List.getElem?_eq_getElem (by
      have := List.length_pos.mpr h
      omega)]
    rfl
  rw [hg]
  exact List.dropLast_concat_getLast h

theorem pdSq_nonneg (p a b : Pt) : 0 ≤ pdSq p a b := by
  unfold pdSq
  split
  · exact le_refl 0
  · exact mul_self_nonneg _

/-- The invariant of the farthest-point scan: the carried pair is the
first maximiser (strictly greater than everything before it, at least
everything scanned), or the untouched initial `(0, 0)` when every
scanned value is `0`. -/
theorem scanFoldInv (val : ℕ → ℚ) (hval : ∀ j, 0 ≤ val j) :
    ∀ k (st : ℕ × ℚ),
      st = (List.range' 1 k).foldl (fun s i => if s.2 < val i then (i, val i) else s) (0, 0) →
      ((∀ j, 1 ≤ j → j < 1 + k → j < st.1 → val j < st.2) ∧
       (∀ j, 1 ≤ j → j < 1 + k → val j ≤ st.2) ∧
       ((st.1 = 0 ∧ st.2 = 0) ∨ (1 ≤ st.1 ∧ st.1 < 1 + k ∧ val st.1 = st.2 ∧ 0 < st.2))) := by
  intro k
  induction k with
  | zero =>
    intro st hst
    simp only [List.range'_zero, List.foldl_nil] at hst
    subst hst
    exact ⟨fun j h1 h2 h3 => absurd h3 (by omega),
      fun j h1 h2 => absurd h2 (by omega), Or.inl ⟨rfl, rfl⟩⟩
  | succ k ih =>
    intro st hst
    rw [List.range'_1_concat, List.foldl_append, List.foldl_cons, List.foldl_nil] at hst
    obtain ⟨ha, hb, hc⟩ := ih _ rfl
    set st' := (List.range' 1 k).foldl (fun s i => if s.2 < val i then (i, val i) else s) (0, 0)
      with hst'
    have h2nn : 0 ≤ st'.2 := by
      rcases hc with ⟨_, h0⟩ | ⟨_, _, _, hpos⟩
      · rw [h0]
      · exact le_of_lt hpos
    by_cases hup : st'.2 < val (1 + k)
    · rw [if_pos hup] at hst
      subst hst
      refine ⟨?_, ?_, ?_⟩
      · intro j h1 h2 h3
        simp only at h3 ⊢
        exact lt_of_le_of_lt (hb j h1 (by omega)) hup
      · intro j h1 h2
        simp only
        by_cases hj : j < 1 + k
        · exact le_of_lt (lt_of_le_of_lt (hb j h1 hj) hup)
        · have : j = 1 + k := by omega
          rw [this]
      · right
        exact ⟨show 1 ≤ 1 + k by omega, show 1 + k < 1 + (k + 1) by omega, rfl,
          lt_of_le_of_lt h2nn hup⟩
    · rw [if_neg hup] at hst
      subst hst
      refine ⟨?_, ?_, ?_⟩
      · intro j h1 h2 h3
        rcases Nat.lt_or_ge j (1 + k) with hj | hj
        · exact ha j h1 hj h3
        · have hjk : j = 1 + k := by omega
          rcases hc with ⟨hi0, _⟩ | ⟨_, hik, _, _⟩
          · omega
          · omega
      · intro j h1 h2
        rcases Nat.lt_or_ge j (1 + k) with hj | hj
        · exact hb j h1 hj
        · have : j = 1 + k := by omega
          rw [this]
          exact not_lt.mp hup
      · rcases hc with ⟨h1, h2⟩ | ⟨h1, h2, h3, h4⟩
        · exact Or.inl ⟨h1, h2⟩
        · exact Or.inr ⟨h1, by omega, h3, h4⟩

/-- The scan's result is determined by the first-maximiser description. -/
theorem scanFold_det (val : ℕ → ℚ) (hval : ∀ j, 0 ≤ val j) (k i : ℕ) (v : ℚ)
    (hi1 : 1 ≤ i) (hik : i < 1 + k) (hvi : val i = v) (hv : 0 < v)
    (hlt : ∀ j, 1 ≤ j → j < i → val j < v)
    (hle : ∀ j, 1 ≤ j → j < 1 + k → val j ≤ v) :
    (List.range' 1 k).foldl (fun s i => if s.2 < val i then (i, val i) else s) (0, 0) = (i, v) := by
  obtain ⟨ha, hb, hc⟩ := scanFoldInv val hval k _ rfl
  set st := (List.range' 1 k).foldl (fun s i => if s.2 < val i then (i, val i) else s) (0, 0)
    with hst
  rcases hc with ⟨h1, h2⟩ | ⟨h1, h2, h3, h4⟩
  · have hB := hb i hi1 hik
    rw [hvi, h2] at hB
    exact absurd hv (not_lt.mpr hB)
  · have hii : st.1 = i := by
      rcases Nat.lt_trichotomy st.1 i with hlt2 | heq | hgt
      · exfalso
        have hA : val st.1 < v := hlt st.1 h1 hlt2
        have hB : val i ≤ st.2 := hb i hi1 hik
        rw [hvi] at hB
        rw [h3] at hA
        exact absurd (lt_of_le_of_lt hB hA) (lt_irrefl v)
      · exact heq
      · exfalso
        have hA : val i < st.2 := ha i hi1 hik hgt
        have hB : val st.1 ≤ v := hle st.1 h1 h2
        rw [hvi] at hA
        rw [h3] at hB
        exact absurd (lt_of_lt_of_le hA hB) (lt_irrefl v)
    have hvv : st.2 = v := by
      rw [← h3, hii, hvi]
    exact Prod.ext hii hvv

/-- `scanFoldInv` specialised to `scanMax`. -/
theorem scanMax_inv (pts : List Pt) :
    (∀ j, 1 ≤ j → j < 1 + (pts.length - 2) → j < (scanMax pts).1 →
        pdSq (pget pts j) (pget pts 0) (pget pts (pts.length - 1)) < (scanMax pts).2) ∧
    (∀ j, 1 ≤ j → j < 1 + (pts.length - 2) →
        pdSq (pget pts j) (pget pts 0) (pget pts (pts.length - 1)) ≤ (scanMax pts).2) ∧
    (((scanMax pts).1 = 0 ∧ (scanMax pts).2 = 0) ∨
     (1 ≤ (scanMax pts).1 ∧ (scanMax pts).1 < 1 + (pts.length - 2) ∧
      pdSq (pget pts (scanMax pts).1) (pget pts 0) (pget pts (pts.length - 1)) =
        (scanMax pts).2 ∧
      0 < (scanMax pts).2)) := by
  unfold scanMax
  exact scanFoldInv (fun j => pdSq (pget pts j) (pget pts 0) (pget pts (pts.length - 1)))
    (fun j => pdSq_nonneg _ _ _) _ _ rfl

/-- `scanFold_det` specialised to `scanMax`. -/
theorem scanMax_det (pts : List Pt) (i : ℕ) (v : ℚ)
    (hi1 : 1 ≤ i) (hik : i < 1 + (pts.length - 2))
    (hvi : pdSq (pget pts i) (pget pts 0) (pget pts (pts.length - 1)) = v) (hv : 0 < v)
    (hlt : ∀ j, 1 ≤ j → j < i →
      pdSq (pget pts j) (pget pts 0) (pget pts (pts.length - 1)) < v)
    (hle : ∀ j, 1 ≤ j → j < 1 + (pts.length - 2) →
      pdSq (pget pts j) (pget pts 0) (pget pts (pts.length - 1)) ≤ v) :
    scanMax pts = (i, v) := by
  unfold scanMax
  exact scanFold_det (fun j => pdSq (pget pts j) (pget pts 0) (pget pts (pts.length - 1)))
    (fun j => pdSq_nonneg _ _ _) _ i v hi1 hik hvi hv hlt hle

/-- When the split index is `0` the source recurses on the whole input
and never terminates: the fuelled embedding returns `none` at all fuels. -/
theorem simplifyF_div (tol : ℚ) (pts : List Pt) (h3 : ¬ pts.length < 3)
    (hex : exceedsTol (scanMax pts).2 (pdDen (pget pts 0) (pget pts (pts.length - 1))) tol)
    (hi : (scanMax pts).1 = 0) :
    ∀ fuel, simplifyF tol fuel pts = none := by
  intro fuel
  induction fuel with
  | zero => rfl
  | succ f ih =>
    unfold simplifyF
    rw [if_neg h3, if_pos hex, hi, List.drop_zero, ih]
    rcases simplifyF tol f (pts.take (0 + 1)) with _ | L
    · rfl
    · rfl

/-- The structural induction behind idempotence: a successful
simplification keeps the endpoints, only keeps interior points that were
interior points of the input, and — the crux — re-simplifying its own
output (with adequate fuel) returns it unchanged, because the first
maximiser of the output is exactly the parent's split point. -/
theorem simplifyF_spec (tol : ℚ) :
    ∀ fuel (pts O : List Pt), simplifyF tol fuel pts = some O →
      (pget O 0 = pget pts 0 ∧
       pget O (O.length - 1) = pget pts (pts.length - 1) ∧
       (2 ≤ pts.length → 2 ≤ O.length) ∧
       (pts.length < 3 → O = pts) ∧
       (∀ t, 1 ≤ t → t + 1 < O.length →
         ∃ j, 1 ≤ j ∧ j + 1 < pts.length ∧ pget pts j = pget O t) ∧
       (∀ g, O.length + 1 ≤ g → simplifyF tol g O = some O)) := by
  intro fuel
  induction fuel with
  | zero =>
    intro pts O h
    exact absurd h (by simp [simplifyF])
  | succ f ih =>
    intro pts O h
    unfold simplifyF at h
    by_cases h3 : pts.length < 3
    · rw [if_pos h3] at h
      injection h with h
      subst h
      refine ⟨rfl, rfl, fun h2 => h2, fun _ => rfl, ?_, ?_⟩
      · intro t h1 ht
        exact absurd ht (by omega)
      · intro g hg
        rcases g with _ | g'
        · exact absurd hg (by omega)
        · unfold simplifyF
          rw [if_pos h3]
    · rw [if_neg h3] at h
      have hn3 : 3 ≤ pts.length := by omega
      by_cases hex : exceedsTol (scanMax pts).2
          (pdDen (pget pts 0) (pget pts (pts.length - 1))) tol
      · rw [if_pos hex] at h
        rcases hL : simplifyF tol f (pts.take ((scanMax pts).1 + 1)) with _ | L
        · rw [hL] at h
          exact absurd h (by simp)
        rcases hR : simplifyF tol f (pts.drop (scanMax pts).1) with _ | R
        · rw [hL, hR] at h
          exact absurd h (by simp)
        rw [hL, hR] at h
        injection h with h
        subst h
        by_cases hi0 : (scanMax pts).1 = 0
        · exfalso
          have hdiv := simplifyF_div tol pts h3 hex hi0 f
          rw [hi0, List.drop_zero, hdiv] at hR
          exact absurd hR (by simp)
        obtain ⟨sa, sb, sc⟩ := scanMax_inv pts
        rcases sc with ⟨hiz, _⟩ | ⟨hi1, hiub, hival, hvpos⟩
        · exact absurd hiz hi0
        set i := (scanMax pts).1 with hidef
        set v := (scanMax pts).2 with hvdef
        set n := pts.length with hndef
        obtain ⟨LA, LB, LC, LD, LE, LF⟩ := ih _ _ hL
        obtain ⟨RA, RB, RC, RD, RE, RF⟩ := ih _ _ hR
        have hnL : (pts.take (i + 1)).length = i + 1 := by
          rw [List.length_take]
          omega
        have hnR : (pts.drop i).length = n - i := by
          rw [List.length_drop]
        have hL2 : 2 ≤ L.length := by
          apply LC
          rw [hnL]
          omega
        have hR2 : 2 ≤ R.length := by
          apply RC
          rw [hnR]
          omega
        have hA0 : pget L 0 = pget pts 0 := by
          rw [LA]
          exact pget_take _ _ _ (by omega)
        have hLlast : pget L (L.length - 1) = pget pts i := by
          rw [LB, hnL]
          have : i + 1 - 1 = i := by omega
          rw [this]
          exact pget_take _ _ _ (by omega)
        have hR0 : pget R 0 = pget pts i := by
          rw [RA, pget_drop, Nat.add_zero]
        have hRlast : pget R (R.length - 1) = pget pts (n - 1) := by
          rw [RB, hnR, pget_drop]
          congr 1
          omega
        have hOlen : (L.dropLast ++ R).length = L.length - 1 + R.length := by
          rw [List.length_append, List.length_dropLast]
        have hOt : ∀ t, pget (L.dropLast ++ R) t =
            if t < L.length - 1 then pget L t else pget R (t - (L.length - 1)) := by
          intro t
          by_cases hc : t < L.length - 1
          · rw [if_pos hc, pget_append_left _ _ _ (by rw [List.length_dropLast]; omega),
              pget_dropLast _ _ (by omega)]
          · rw [if_neg hc, pget_append_right _ _ _ (by rw [List.length_dropLast]; omega),
              List.length_dropLast]
        have hO0 : pget (L.dropLast ++ R) 0 = pget pts 0 := by
          rw [hOt, if_pos (by omega), hA0]
        have hOlast : pget (L.dropLast ++ R) ((L.dropLast ++ R).length - 1) =
            pget pts (n - 1) := by
          rw [hOt, if_neg (by rw [hOlen]; omega)]
          rw [hOlen]
          have : L.length - 1 + R.length - 1 - (L.length - 1) = R.length - 1 := by omega
          rw [this, hRlast]
        have hInt : ∀ t, 1 ≤ t → t + 1 < (L.dropLast ++ R).length →
            ∃ j, 1 ≤ j ∧ j + 1 < n ∧ pget pts j = pget (L.dropLast ++ R) t := by
          intro t h1 ht
          rw [hOlen] at ht
          rcases Nat.lt_trichotomy t (L.length - 1) with hc | hc | hc
          · rw [hOt, if_pos hc]
            obtain ⟨j, hj1, hj2, hj3⟩ := LE t h1 (by omega)
            rw [hnL] at hj2
            refine ⟨j, hj1, by omega, ?_⟩
            rw [← hj3]
            exact (pget_take pts (i + 1) j (by omega)).symm
          · rw [hOt, if_neg (by omega), hc, Nat.sub_self]
            exact ⟨i, hi1, by omega, by rw [hR0]⟩
          · rw [hOt, if_neg (by omega)]
            obtain ⟨j', hj1, hj2, hj3⟩ := RE (t - (L.length - 1)) (by omega)
              (by omega)
            rw [hnR] at hj2
            refine ⟨i + j', by omega, by omega, ?_⟩
            rw [← hj3, pget_drop]
        have hstab : ∀ g, (L.dropLast ++ R).length + 1 ≤ g →
            simplifyF tol g (L.dropLast ++ R) = some (L.dropLast ++ R) := by
          intro g hg
          rcases g with _ | g'
          · exact absurd hg (by omega)
          have hOlen3 : ¬ (L.dropLast ++ R).length < 3 := by
            rw [hOlen]
            omega
          unfold simplifyF
          rw [if_neg hOlen3]
          have hscan : scanMax (L.dropLast ++ R) = (L.length - 1, v) := by
            apply scanMax_det
            · omega
            · rw [hOlen]
              omega
            · rw [hO0, hOlast, hOt, if_neg (by omega), Nat.sub_self, hR0]
              exact hival
            · exact hvpos
            · intro j hj1 hjlt
              rw [hO0, hOlast, hOt, if_pos hjlt]
              obtain ⟨jj, hq1, hq2, hq3⟩ := LE j hj1 (by omega)
              rw [hnL] at hq2
              rw [← hq3, pget_take pts (i + 1) jj (by omega)]
              exact sa jj hq1 (by omega) (by omega)
            · intro j hj1 hjub
              obtain ⟨jj, hq1, hq2, hq3⟩ := hInt j hj1 (by rw [hOlen] at *; omega)
              rw [hO0, hOlast, ← hq3]
              exact sb jj hq1 (by omega)
          rw [hscan]
          have hexO : exceedsTol (L.length - 1, v).2
              (pdDen (pget (L.dropLast ++ R) 0)
                (pget (L.dropLast ++ R) ((L.dropLast ++ R).length - 1))) tol := by
            rw [hO0, hOlast]
            exact hex
          rw [if_pos hexO]
          have htake : (L.dropLast ++ R).take ((L.length - 1, v).1 + 1) = L := by
            have h1 : (L.length - 1) + 1 = L.length := by omega
            show (L.dropLast ++ R).take ((L.length - 1) + 1) = L
            rw [h1, List.take_append_eq_append_take,
              List.take_of_length_le (by rw [List.length_dropLast]; omega),
              List.length_dropLast]
            have h2 : L.length - (L.length - 1) = 1 := by omega
            rw [h2]
            rcases R with _ | ⟨r, R'⟩
            · exact absurd hR2 (by simp)
            · show L.dropLast ++ [r] = L
              have hr : r = pget L (L.length - 1) := by
                show pget (r :: R') 0 = pget L (L.length - 1)
                rw [hR0, hLlast]
              rw [hr]
              exact dropLast_append_pget_last L (by
                intro hc
                rw [hc] at hL2
                simp at hL2)
          have hdrop : (L.dropLast ++ R).drop (L.length - 1, v).1 = R := by
            show (L.dropLast ++ R).drop (L.length - 1) = R
            exact List.drop_left' (by rw [List.length_dropLast])
          rw [htake, hdrop, LF g' (by rw [hOlen] at hg; omega),
            RF g' (by rw [hOlen] at hg; omega)]
        exact ⟨hO0, hOlast, fun _ => by rw [hOlen]; omega,
          fun hc => absurd hc h3, hInt, hstab⟩
      · rw [if_neg hex] at h
        injection h with h
        subst h
        refine ⟨rfl, rfl, fun _ => by simp, fun hc => absurd hc h3, ?_, ?_⟩
        · intro t h1 ht
          simp only [List.length_cons, List.length_nil] at ht
          exact absurd ht (by omega)
        · intro g hg
          rcases g with _ | g'
          · simp only [List.length_cons, List.length_nil] at hg
            exact absurd hg (by omega)
          · unfold simplifyF
            rw [if_pos (by simp)]

/-- **C7** (confirmed): `simplifyPath` is idempotent: for every point
sequence `P` and every tolerance `t`, whenever `simplifyPath(P, t)`
terminates with output `O` (the fuelled embedding returns `some O`;
the JS diverges on the remaining inputs, all with negative tolerance),
running `simplifyPath(O, t)` returns `O` again. -/
theorem C7_simplifyPath_idempotent (P : List Pt) (t : ℚ) (O : List Pt)
    (h : simplifyPath P t = some O) : simplifyPath O t = some O := by
  unfold simplifyPath
  unfold simplifyPath at h
  exact (simplifyF_spec t (P.length + 1) P O h).2.2.2.2.2 (O.length + 1) (le_refl _)

/-- **C7** (witness): idempotence at the documentation's own example
(`[(0,0),(1,0.1),(2,-0.1),(5,2),(8,0.1),(10,0)]`, tolerance `1`). -/
theorem C7_simplifyPath_idempotent_witness :
    simplifyPath [⟨0, 0⟩, ⟨1, 1/10⟩, ⟨2, -1/10⟩, ⟨5, 2⟩, ⟨8, 1/10⟩, ⟨10, 0⟩] 1 =
      some [⟨0, 0⟩, ⟨5, 2⟩, ⟨10, 0⟩] ∧
    simplifyPath [⟨0, 0⟩, ⟨5, 2⟩, ⟨10, 0⟩] 1 = some [⟨0, 0⟩, ⟨5, 2⟩, ⟨10, 0⟩] :=
  ⟨by decide, C7_simplifyPath_idempotent
    [⟨0, 0⟩, ⟨1, 1/10⟩, ⟨2, -1/10⟩, ⟨5, 2⟩, ⟨8, 1/10⟩, ⟨10, 0⟩] 1
    [⟨0, 0⟩, ⟨5, 2⟩, ⟨10, 0⟩] (by decide)⟩

/-! ### Curve fitting -/

theorem distanceSq_nonneg (p q : Pt) : 0 ≤ distanceSq p q :=
  add_nonneg (mul_self_nonneg _) (mul_self_nonneg _)

theorem distanceSq_cast (p q : Pt) :
    ((distanceSq p q : ℚ) : ℝ) =
      (vecR p q).x * (vecR p q).x + (vecR p q).y * (vecR p q).y := by
  unfold distanceSq vecR
  push_cast
  ring

/-- `√(distanceSq) ≥ 1/10` whenever `distanceSq ≥ 1/100`. -/
theorem sqrt_distanceSq_ge (p q : Pt) (h : 1/100 ≤ distanceSq p q) :
    (1/10 : ℝ) ≤ Real.sqrt ((distanceSq p q : ℚ) : ℝ) := by
  have hc : ((1/100 : ℚ) : ℝ) ≤ ((distanceSq p q : ℚ) : ℝ) := by exact_mod_cast h
  have hcc : ((1/100 : ℚ) : ℝ) = (1/100 : ℝ) := by norm_num
  have h1 : ((1:ℝ)/10) = Real.sqrt ((1/10)^2) := by
    rw [Real.sqrt_sq (by norm_num)]
  rw [h1]
  apply Real.sqrt_le_sqrt
  nlinarith [hc, hcc]

/-- `isCorner` at two present neighbours, unfolded. -/
theorem isCorner_some (p c n : Pt) :
    isCorner (some p) c (some n) =
      if distLT p c (1/10) ∨ distLT c n (1/10) then false
      else
        decide (((c.x - p.x) * (n.x - c.x) + (c.y - p.y) * (n.y - c.y)) < 0 ∨
          25 * (((c.x - p.x) * (n.x - c.x) + (c.y - p.y) * (n.y - c.y)) *
                ((c.x - p.x) * (n.x - c.x) + (c.y - p.y) * (n.y - c.y))) <
            distanceSq p c * distanceSq c n) := rfl

/-- **C4** (counterexample): an endpoint with a degenerately short
adjacent edge is classified as *not* a corner (`return false`), not
unconditionally as a corner as claimed: with `prev = curr = (0,0)` and
`next = (5,0)` the adjacent edge has length `0 < 0.1` yet
`isCorner = false`. -/
theorem C4_short_edge_cex :
    isCorner (some ⟨0, 0⟩) ⟨0, 0⟩ (some ⟨5, 0⟩) = false ∧
    distanceSq ⟨0, 0⟩ ⟨0, 0⟩ < 1/100 := by decide

/-- **C4** (amended): an endpoint is classified unconditionally as a
corner when either adjacent point is absent (open-path endpoint); it is
classified unconditionally as *not* a corner when either adjacent edge
is degenerately short (below the `0.1` minimal-distance threshold);
otherwise it is a corner exactly when the dot product of the unit
incoming and outgoing edge vectors (as the source computes with
`safeNormalize`) is below `0.2`. -/
theorem C4_corner_rule :
    (∀ (q : Pt) (o : Option Pt), isCorner none q o = true ∧ isCorner o q none = true) ∧
    (∀ prev curr next : Pt,
      distanceSq prev curr < 1/100 ∨ distanceSq curr next < 1/100 →
      isCorner (some prev) curr (some next) = false) ∧
    (∀ prev curr next : Pt,
      1/100 ≤ distanceSq prev curr → 1/100 ≤ distanceSq curr next →
      (isCorner (some prev) curr (some next) = true ↔
        dotR (safeNormalize (vecR prev curr)) (safeNormalize (vecR curr next)) < 1/5)) := by
  refine ⟨?_, ?_, ?_⟩
  · intro q o
    cases o with
    | none => exact ⟨rfl, rfl⟩
    | some p => exact ⟨rfl, rfl⟩
  · intro prev curr next h
    rw [isCorner_some, if_pos]
    rcases h with h | h
    · exact Or.inl (by simp only [distLT, decide_eq_true_eq]; exact ⟨by norm_num, by nlinarith⟩)
    · exact Or.inr (by simp only [distLT, decide_eq_true_eq]; exact ⟨by norm_num, by nlinarith⟩)
  · intro prev curr next h1 h2
    rw [isCorner_some, if_neg ?hcond]
    case hcond =>
      rintro (hc | hc) <;>
        (simp only [distLT, decide_eq_true_eq] at hc; nlinarith [hc.2])
    rw [decide_eq_true_eq]
    have hd1nn : (0:ℚ) ≤ distanceSq prev curr := distanceSq_nonneg _ _
    have hd2nn : (0:ℚ) ≤ distanceSq curr next := distanceSq_nonneg _ _
    set D1 : ℝ := ((distanceSq prev curr : ℚ) : ℝ) with hD1def
    set D2 : ℝ := ((distanceSq curr next : ℚ) : ℝ) with hD2def
    have hD1nn : (0:ℝ) ≤ D1 := by rw [hD1def]; exact_mod_cast hd1nn
    have hD2nn : (0:ℝ) ≤ D2 := by rw [hD2def]; exact_mod_cast hd2nn
    have hL1 : Real.sqrt ((vecR prev curr).x * (vecR prev curr).x +
        (vecR prev curr).y * (vecR prev curr).y) = Real.sqrt D1 := by
      rw [hD1def, distanceSq_cast]
    have hL2 : Real.sqrt ((vecR curr next).x * (vecR curr next).x +
        (vecR curr next).y * (vecR curr next).y) = Real.sqrt D2 := by
      rw [hD2def, distanceSq_cast]
    have hL1ge : (1/10 : ℝ) ≤ Real.sqrt D1 := by
      rw [hD1def]
      exact sqrt_distanceSq_ge _ _ h1
    have hL2ge : (1/10 : ℝ) ≤ Real.sqrt D2 := by
      rw [hD2def]
      exact sqrt_distanceSq_ge _ _ h2
    have hL1pos : (0:ℝ) < Real.sqrt D1 := by linarith
    have hL2pos : (0:ℝ) < Real.sqrt D2 := by linarith
    unfold safeNormalize
    rw [hL1, hL2, if_neg (by intro hc; nlinarith), if_neg (by intro hc; nlinarith)]
    unfold dotR
    set v1 := vecR prev curr with hv1
    set v2 := vecR curr next with hv2
    have hdot : v1.x / Real.sqrt D1 * (v2.x / Real.sqrt D2) +
        v1.y / Real.sqrt D1 * (v2.y / Real.sqrt D2) =
        (v1.x * v2.x + v1.y * v2.y) / (Real.sqrt D1 * Real.sqrt D2) := by
      field_simp
    show _ ↔ v1.x / Real.sqrt D1 * (v2.x / Real.sqrt D2) +
        v1.y / Real.sqrt D1 * (v2.y / Real.sqrt D2) < 1/5
    rw [hdot]
    have hcast : (((curr.x - prev.x) * (next.x - curr.x) +
        (curr.y - prev.y) * (next.y - curr.y) : ℚ) : ℝ) =
        v1.x * v2.x + v1.y * v2.y := by
      rw [hv1, hv2]
      unfold vecR
      push_cast
      ring
    have hSpos : (0:ℝ) < Real.sqrt D1 * Real.sqrt D2 := mul_pos hL1pos hL2pos
    have hSS : (Real.sqrt D1 * Real.sqrt D2) * (Real.sqrt D1 * Real.sqrt D2) = D1 * D2 := by
      have e1 : Real.sqrt D1 * Real.sqrt D1 = D1 := Real.mul_self_sqrt hD1nn
      have e2 : Real.sqrt D2 * Real.sqrt D2 = D2 := Real.mul_self_sqrt hD2nn
      nlinarith [e1, e2]
    rw [div_lt_iff hSpos]
    set dq : ℚ := (curr.x - prev.x) * (next.x - curr.x) +
      (curr.y - prev.y) * (next.y - curr.y) with hdq
    set dR : ℝ := v1.x * v2.x + v1.y * v2.y with hdR
    have hcast2 : (dq : ℝ) = dR := hcast
    set S : ℝ := Real.sqrt D1 * Real.sqrt D2 with hS
    constructor
    · rintro (hneg | hsq)
      · have hdRneg : dR < 0 := by
          rw [← hcast2]
          exact_mod_cast hneg
        linarith
      · have hsqR : 25 * (dR * dR) < D1 * D2 := by
          rw [← hcast2, hD1def, hD2def]
          exact_mod_cast hsq
        rcases lt_or_le dR 0 with hc | hc
        · linarith
        · by_contra hcon
          push_neg at hcon
          have h5 : S ≤ 5 * dR := by linarith
          have hmul : S * S ≤ (5 * dR) * (5 * dR) :=
            mul_le_mul h5 h5 (le_of_lt hSpos) (by linarith)
          have h25 : (5 * dR) * (5 * dR) = 25 * (dR * dR) := by ring
          rw [hSS, h25] at hmul
          linarith
    · intro hlt
      rcases lt_or_le dR 0 with hc | hc
      · left
        have : (dq : ℝ) < 0 := by
          rw [hcast2]
          exact hc
        exact_mod_cast this
      · right
        have h5 : 5 * dR < S := by linarith
        have hmul : (5 * dR) * (5 * dR) < S * S :=
          mul_self_lt_mul_self (by linarith) h5
        have h25 : (5 * dR) * (5 * dR) = 25 * (dR * dR) := by ring
        rw [hSS, h25] at hmul
        rw [hD1def, hD2def, ← hcast2] at hmul
        exact_mod_cast hmul

/-- **C4** (witness): the amended rule at concrete inputs — an absent
neighbour forces a corner, a degenerate edge forces a non-corner, and
for well-separated collinear points the unit-dot criterion applies. -/
theorem C4_corner_rule_witness :
    (isCorner none ⟨0, 0⟩ (some ⟨1, 0⟩) = true ∧
      isCorner (some ⟨0, 0⟩) ⟨1, 0⟩ none = true) ∧
    (distanceSq ⟨0, 0⟩ ⟨0, 0⟩ < 1/100 ∨ distanceSq ⟨0, 0⟩ ⟨5, 0⟩ < 1/100) ∧
    isCorner (some ⟨0, 0⟩) ⟨0, 0⟩ (some ⟨5, 0⟩) = false ∧
    (1/100 ≤ distanceSq ⟨0, 0⟩ ⟨1, 0⟩ ∧ 1/100 ≤ distanceSq ⟨1, 0⟩ ⟨2, 0⟩) ∧
    (isCorner (some ⟨0, 0⟩) ⟨1, 0⟩ (some ⟨2, 0⟩) = true ↔
      dotR (safeNormalize (vecR ⟨0, 0⟩ ⟨1, 0⟩)) (safeNormalize (vecR ⟨1, 0⟩ ⟨2, 0⟩)) < 1/5) :=
  ⟨C4_corner_rule.1 ⟨0, 0⟩ (some ⟨1, 0⟩),
   Or.inl (by decide),
   C4_corner_rule.2.1 ⟨0, 0⟩ ⟨0, 0⟩ ⟨5, 0⟩ (Or.inl (by decide)),
   ⟨by decide, by decide⟩,
   C4_corner_rule.2.2 ⟨0, 0⟩ ⟨1, 0⟩ ⟨2, 0⟩ (by decide) (by decide)⟩

/-- A `safeNormalize` output has squared norm at most `1` (exactly `1`
for a genuine normalisation, `0` for the zero-vector fallback). -/
theorem safeNormalize_norm_le (v : PtR) :
    (safeNormalize v).x * (safeNormalize v).x +
      (safeNormalize v).y * (safeNormalize v).y ≤ 1 := by
  unfold safeNormalize
  split
  · norm_num
  · rename_i hge
    push_neg at hge
    set L := Real.sqrt (v.x * v.x + v.y * v.y) with hLdef
    have hLpos : 0 < L := lt_of_lt_of_le (by norm_num) hge
    have hL2 : L * L = v.x * v.x + v.y * v.y := by
      rw [hLdef]
      exact Real.mul_self_sqrt (add_nonneg (mul_self_nonneg _) (mul_self_nonneg _))
    have hpos : 0 < v.x * v.x + v.y * v.y := by
      rw [← hL2]
      exact mul_pos hLpos hLpos
    dsimp only
    have heq : v.x / L * (v.x / L) + v.y / L * (v.y / L) =
        (v.x * v.x + v.y * v.y) / (L * L) := by
      field_simp
    rw [heq, hL2, div_self (ne_of_gt hpos)]

/-- Walking from a point along a sub-unit direction by a non-negative
length moves the point by at most that length. -/
theorem handle_dist (p : Pt) (t : PtR) (len : ℝ) (hlen : 0 ≤ len)
    (ht : t.x * t.x + t.y * t.y ≤ 1) :
    distance (toR p) ⟨(p.x : ℝ) + t.x * len, (p.y : ℝ) + t.y * len⟩ ≤ len := by
  unfold distance toR
  dsimp only
  have he : ((p.x : ℝ) + t.x * len - (p.x : ℝ)) ^ 2 +
      ((p.y : ℝ) + t.y * len - (p.y : ℝ)) ^ 2 =
      (t.x * t.x + t.y * t.y) * (len * len) := by
    ring
  rw [he]
  calc Real.sqrt ((t.x * t.x + t.y * t.y) * (len * len)) ≤
      Real.sqrt (1 * (len * len)) :=
        Real.sqrt_le_sqrt (by nlinarith [mul_self_nonneg len])
    _ = len := by
        rw [one_mul]
        exact Real.sqrt_mul_self hlen

/-- Every curve a single segment fit emits has both handles clamped. -/
theorem fitSeg_handles (clean : List Pt) (isC : Bool) (i : ℕ) (c : Curve)
    (h : fitSeg clean isC i = some c) :
    distance c.p0 c.p1 ≤ (4/10) * distance c.p0 c.p3 ∧
    distance c.p3 c.p2 ≤ (4/10) * distance c.p0 c.p3 := by
  unfold fitSeg at h
  split at h
  · exact absurd h (by simp)
  · dsimp only at h
    have hD : 0 ≤ distance (toR (pget clean i)) (toR (pget clean (i + 1))) :=
      Real.sqrt_nonneg _
    repeat' split at h
    all_goals
      cases c with
      | mk a b c2 d =>
        simp only [Option.some.injEq, Curve.mk.injEq] at h
        obtain ⟨h0, h1, h2, h3⟩ := h
        subst h0
        subst h1
        subst h2
        subst h3
        constructor <;>
          exact le_trans
            (handle_dist _ _ _
              (le_min (mul_nonneg hD (by norm_num)) (mul_nonneg hD (by norm_num)))
              (safeNormalize_norm_le _))
            (le_trans (min_le_right _ _) (le_of_eq (mul_comm _ _)))

/-- **C6** (confirmed): for every Bezier curve `{p0,p1,p2,p3}` emitted by
`fitCurves`, on any input point sequence, the handle lengths `|p1-p0|`
and `|p2-p3|` are each at most `0.4` times the endpoint distance
`|p3-p0|` (the `maxLen = dist·0.4` clamp, together with the unit or zero
tangents from `safeNormalize`). -/
theorem C6_handle_clamp (points : List Pt) :
    (fitCurves points).Forall (fun c =>
      distance c.p0 c.p1 ≤ (4/10) * distance c.p0 c.p3 ∧
      distance c.p3 c.p2 ≤ (4/10) * distance c.p0 c.p3) := by
  rw [List.forall_iff_forall_mem]
  intro c hc
  unfold fitCurves at hc
  dsimp only at hc
  split at hc
  · exact absurd hc (by simp)
  · rw [List.mem_filterMap] at hc
    obtain ⟨i, _, hseg⟩ := hc
    exact fitSeg_handles _ _ i c hseg

/-! ### Quantizer and assembler -/

/-- **C9** (confirmed): if the pixel buffer contains no visible pixel
(every alpha sample `≤ 20`), `quantizeImage` returns the empty layer
list — for any requested color count and any randomness — and the
assembler consequently produces an empty shape list; neither raises an
error. -/
theorem C9_transparent_empty (pd : PixelData) (k : ℕ) (rand : ℕ → ℕ)
    (h : ∀ i, i < pd.width * pd.height → pixAt pd.pixels (i * 4 + 3) ≤ 20) :
    quantizeImage pd k rand = [] ∧ mainShapes pd rand = [] := by
  have hfilter : (List.range (pd.width * pd.height)).filter
      (fun i => decide (20 < pixAt pd.pixels (i * 4 + 3))) = [] := by
    rw [List.filter_eq_nil_iff]
    intro a ha
    simp only [decide_eq_true_eq, not_lt]
    exact h a (List.mem_range.mp ha)
  have hq : ∀ kk, quantizeImage pd kk rand = [] := by
    intro kk
    simp [quantizeImage, hfilter]
  refine ⟨hq k, ?_⟩
  unfold mainShapes
  rw [hq 16]
  simp [sortShapes]

/-- **C9** (witness): the fully transparent 1×1 buffer yields no layers
and no shapes. -/
theorem C9_transparent_empty_witness :
    (∀ i, i < 1 * 1 → pixAt [0, 0, 0, 0] (i * 4 + 3) ≤ 20) ∧
    (quantizeImage ⟨1, 1, [0, 0, 0, 0]⟩ 16 (fun _ => 0) = [] ∧
     mainShapes ⟨1, 1, [0, 0, 0, 0]⟩ (fun _ => 0) = []) :=
  ⟨by decide, C9_transparent_empty ⟨1, 1, [0, 0, 0, 0]⟩ 16 (fun _ => 0) (by decide)⟩

/-- **C10** (confirmed): `getPolygonArea` returns the absolute value of
the shoelace sum halved, for every point sequence, and is therefore
non-negative — so the minimum-area filter and the descending-area sort
of the assembler always operate on values `≥ 0`, never on an
orientation-dependent signed area. -/
theorem C10_polygon_area_nonneg (points : List Pt) :
    getPolygonArea points = |shoelaceSum points| / 2 ∧ 0 ≤ getPolygonArea points := by
  have hfun : (fun (area : ℚ) i =>
        area + (pget points i).x * (pget points ((i + 1) % points.length)).y
             - (pget points ((i + 1) % points.length)).x * (pget points i).y) =
      (fun (area : ℚ) i =>
        area + ((pget points i).x * (pget points ((i + 1) % points.length)).y -
          (pget points ((i + 1) % points.length)).x * (pget points i).y)) := by
    funext a i
    ring
  constructor
  · unfold getPolygonArea
    rw [hfun, foldl_range_add]
    simp [shoelaceSum]
  · unfold getPolygonArea
    positivity

/-! ### Contour counting: components as closure saturation -/

theorem mem_fgSet (m : Grid) (p : ℤ × ℤ) :
    p ∈ fgSet m ↔ 0 ≤ p.1 ∧ p.1 < (gridW m : ℤ) ∧ 0 ≤ p.2 ∧ p.2 < (gridH m : ℤ) ∧
      readPix m p.1 p.2 = 1 := by
  simp only [fgSet, Finset.mem_filter, Finset.mem_product, Finset.mem_Icc]
  constructor
  · rintro ⟨⟨⟨h1, h2⟩, h3, h4⟩, h5⟩
    exact ⟨h1, by omega, h3, by omega, h5⟩
  · rintro ⟨h1, h2, h3, h4, h5⟩
    exact ⟨⟨⟨h1, by omega⟩, h3, by omega⟩, h5⟩

theorem adj4_closed (m : Grid) : ∀ a b, adj4 m a b = true → b ∈ fgSet m := by
  intro a b h
  simp only [adj4, Bool.and_eq_true, decide_eq_true_eq] at h
  exact h.1.2

theorem adj4_memL (m : Grid) : ∀ a b, adj4 m a b = true → a ∈ fgSet m := by
  intro a b h
  simp only [adj4, Bool.and_eq_true, decide_eq_true_eq] at h
  exact h.1.1

theorem adj4_symmB (m : Grid) : ∀ a b, adj4 m a b = true → adj4 m b a = true := by
  intro a b h
  simp only [adj4, Bool.and_eq_true, decide_eq_true_eq] at h ⊢
  exact ⟨⟨h.1.2, h.1.1⟩, by omega⟩

theorem compStep_subset (F : Finset (ℤ × ℤ)) (adj : ℤ × ℤ → ℤ × ℤ → Bool)
    (s : Finset (ℤ × ℤ)) : s ⊆ compStep F adj s :=
  Finset.subset_union_left

theorem compIter_subset (F : Finset (ℤ × ℤ)) (adj : ℤ × ℤ → ℤ × ℤ → Bool)
    (p : ℤ × ℤ) (hp : p ∈ F) : ∀ i, (compStep F adj)^[i] {p} ⊆ F := by
  intro i
  induction i with
  | zero =>
    simp only [Function.iterate_zero_apply]
    exact Finset.singleton_subset_iff.mpr hp
  | succ n ih =>
    rw [Function.iterate_succ_apply']
    intro x hx
    simp only [compStep, Finset.mem_union, Finset.mem_filter] at hx
    rcases hx with hx | ⟨hxF, _⟩
    · exact ih hx
    · exact hxF

theorem compOf_fixed (F : Finset (ℤ × ℤ)) (adj : ℤ × ℤ → ℤ × ℤ → Bool)
    (p : ℤ × ℤ) (hp : p ∈ F) :
    compStep F adj (compOf F adj p) = compOf F adj p := by
  have hgrow : ∀ i,
      (∀ j, j < i → compStep F adj ((compStep F adj)^[j] {p}) ≠ (compStep F adj)^[j] {p}) →
      i + 1 ≤ ((compStep F adj)^[i] {p}).card := by
    intro i
    induction i with
    | zero => intro _; simp
    | succ n ih =>
      intro hall
      have h1 : n + 1 ≤ ((compStep F adj)^[n] {p}).card :=
        ih (fun j hj => hall j (Nat.lt_succ_of_lt hj))
      have hne : compStep F adj ((compStep F adj)^[n] {p}) ≠ (compStep F adj)^[n] {p} :=
        hall n (Nat.lt_succ_self n)
      have hss : (compStep F adj)^[n] {p} ⊂ (compStep F adj)^[n + 1] {p} := by
        rw [Function.iterate_succ_apply']
        exact ⟨compStep_subset F adj _,
          fun hsub => hne (Finset.Subset.antisymm hsub (compStep_subset F adj _))⟩
      have h2 := Finset.card_lt_card hss
      omega
  by_cases hfix : ∃ j, j < F.card ∧
      compStep F adj ((compStep F adj)^[j] {p}) = (compStep F adj)^[j] {p}
  · obtain ⟨j, hj, hfx⟩ := hfix
    have hsplit : F.card = (F.card - j) + j := by omega
    have hstab : (compStep F adj)^[F.card] {p} = (compStep F adj)^[j] {p} := by
      rw [hsplit, Function.iterate_add_apply]
      exact Function.iterate_fixed hfx (F.card - j)
    show compStep F adj ((compStep F adj)^[F.card] {p}) = (compStep F adj)^[F.card] {p}
    rw [hstab]
    exact hfx
  · push_neg at hfix
    have h1 := hgrow F.card hfix
    have h2 : ((compStep F adj)^[F.card] {p}).card ≤ F.card :=
      Finset.card_le_card (compIter_subset F adj p hp F.card)
    omega

theorem mem_compOf_self (F : Finset (ℤ × ℤ)) (adj : ℤ × ℤ → ℤ × ℤ → Bool)
    (p : ℤ × ℤ) : p ∈ compOf F adj p := by
  have hall : ∀ i, p ∈ (compStep F adj)^[i] {p} := by
    intro i
    induction i with
    | zero => simp
    | succ n ih =>
      rw [Function.iterate_succ_apply']
      exact compStep_subset F adj _ ih
  exact hall F.card

theorem compOf_subset (F : Finset (ℤ × ℤ)) (adj : ℤ × ℤ → ℤ × ℤ → Bool)
    (p : ℤ × ℤ) (hp : p ∈ F) : compOf F adj p ⊆ F :=
  compIter_subset F adj p hp F.card

theorem compOf_closed (F : Finset (ℤ × ℤ)) (adj : ℤ × ℤ → ℤ × ℤ → Bool)
    (p : ℤ × ℤ) (hp : p ∈ F) (q r : ℤ × ℤ)
    (hq : q ∈ compOf F adj p) (hr : r ∈ F) (ha : adj q r = true) :
    r ∈ compOf F adj p := by
  have hfix := compOf_fixed F adj p hp
  rw [← hfix]
  simp only [compStep, Finset.mem_union, Finset.mem_filter]
  exact Or.inr ⟨hr, q, hq, ha⟩

theorem reach_mem_compOf (F : Finset (ℤ × ℤ)) (adj : ℤ × ℤ → ℤ × ℤ → Bool)
    (p q : ℤ × ℤ) (hp : p ∈ F) (hclosed : ∀ a b, adj a b = true → b ∈ F)
    (hr : Relation.ReflTransGen (fun a b => adj a b = true) p q) :
    q ∈ compOf F adj p := by
  induction hr with
  | refl => exact mem_compOf_self F adj p
  | @tail b c hab hbc ih =>
    exact compOf_closed F adj p hp b c ih (hclosed b c hbc) hbc

theorem compOf_subset_reach (F : Finset (ℤ × ℤ)) (adj : ℤ × ℤ → ℤ × ℤ → Bool)
    (p : ℤ × ℤ) :
    ∀ q ∈ compOf F adj p, Relation.ReflTransGen (fun a b => adj a b = true) p q := by
  have hall : ∀ i, ∀ q ∈ (compStep F adj)^[i] {p},
      Relation.ReflTransGen (fun a b => adj a b = true) p q := by
    intro i
    induction i with
    | zero =>
      intro q hq
      simp only [Function.iterate_zero_apply, Finset.mem_singleton] at hq
      subst hq
      exact Relation.ReflTransGen.refl
    | succ n ih =>
      intro q hq
      rw [Function.iterate_succ_apply'] at hq
      simp only [compStep, Finset.mem_union, Finset.mem_filter] at hq
      rcases hq with hq | ⟨_, a, ha, hadj⟩
      · exact ih q hq
      · exact (ih a ha).tail hadj
  exact hall F.card

theorem mem_compOf_iff (F : Finset (ℤ × ℤ)) (adj : ℤ × ℤ → ℤ × ℤ → Bool)
    (p : ℤ × ℤ) (hp : p ∈ F) (hclosed : ∀ a b, adj a b = true → b ∈ F)
    (q : ℤ × ℤ) :
    q ∈ compOf F adj p ↔
      q ∈ F ∧ Relation.ReflTransGen (fun a b => adj a b = true) p q := by
  constructor
  · intro h
    exact ⟨compOf_subset F adj p hp h, compOf_subset_reach F adj p q h⟩
  · rintro ⟨_, hr⟩
    exact reach_mem_compOf F adj p q hp hclosed hr

theorem compOf_eq_of_mem (F : Finset (ℤ × ℤ)) (adj : ℤ × ℤ → ℤ × ℤ → Bool)
    (hsymm : ∀ a b, adj a b = true → adj b a = true)
    (hclosed : ∀ a b, adj a b = true → b ∈ F)
    (p q : ℤ × ℤ) (hp : p ∈ F) (hq : q ∈ compOf F adj p) :
    compOf F adj q = compOf F adj p := by
  have hqF : q ∈ F := compOf_subset F adj p hp hq
  have hpq : Relation.ReflTransGen (fun a b => adj a b = true) p q :=
    compOf_subset_reach F adj p q hq
  have hsymm' : Symmetric (fun a b => adj a b = true) := fun a b h => hsymm a b h
  have hqp : Relation.ReflTransGen (fun a b => adj a b = true) q p :=
    (Relation.ReflTransGen.symmetric hsymm') hpq
  ext r
  rw [mem_compOf_iff F adj q hqF hclosed, mem_compOf_iff F adj p hp hclosed]
  constructor
  · rintro ⟨hrF, hr⟩
    exact ⟨hrF, hpq.trans hr⟩
  · rintro ⟨hrF, hr⟩
    exact ⟨hrF, hqp.trans hr⟩

/-! ### Contour counting: the BFS flood fill -/

theorem mem_floodNbrs (x y : ℤ) (r : ℤ × ℤ) :
    r ∈ floodNbrs x y ↔ (r.1 - x).natAbs + (r.2 - y).natAbs = 1 := by
  obtain ⟨rx, ry⟩ := r
  simp only [floodNbrs, List.mem_cons, List.not_mem_nil, or_false, Prod.mk.injEq]
  constructor
  · intro h
    omega
  · intro h
    omega

theorem floodNbrs_nodup (x y : ℤ) : (floodNbrs x y).Nodup := by
  simp only [floodNbrs, List.nodup_cons, List.mem_cons, List.not_mem_nil, or_false,
    List.nodup_nil, and_true, Prod.mk.injEq, not_or, true_and, not_false_eq_true]
  omega

theorem mem_floodNew (m : Grid) (x y : ℤ) (V : Finset (ℤ × ℤ))
    (hx : (x, y) ∈ fgSet m) (r : ℤ × ℤ) :
    r ∈ (floodNbrs x y).filter (fun n =>
      decide (0 ≤ n.1 ∧ n.1 < (gridW m : ℤ) ∧ 0 ≤ n.2 ∧ n.2 < (gridH m : ℤ) ∧
        readPix m n.1 n.2 = 1 ∧ n ∉ V)) ↔ adj4 m (x, y) r = true ∧ r ∉ V := by
  rw [List.mem_filter]
  simp only [decide_eq_true_eq]
  constructor
  · rintro ⟨hmemN, h0, h1, h2, h3, h4, h5⟩
    refine ⟨?_, h5⟩
    simp only [adj4, Bool.and_eq_true, decide_eq_true_eq]
    refine ⟨⟨hx, (mem_fgSet m r).mpr ⟨h0, h1, h2, h3, h4⟩⟩, ?_⟩
    exact (mem_floodNbrs x y r).mp hmemN
  · rintro ⟨hadj, hV⟩
    simp only [adj4, Bool.and_eq_true, decide_eq_true_eq] at hadj
    obtain ⟨⟨_, hrF⟩, hd⟩ := hadj
    obtain ⟨h0, h1, h2, h3, h4⟩ := (mem_fgSet m r).mp hrF
    exact ⟨(mem_floodNbrs x y r).mpr hd, h0, h1, h2, h3, h4, hV⟩

theorem floodLoop_cons (m : Grid) (fuel : ℕ) (x y : ℤ) (rest : List (ℤ × ℤ))
    (V : Finset (ℤ × ℤ)) :
    floodLoop m (fuel + 1) ((x, y) :: rest) V =
      floodLoop m fuel
        (rest ++ (floodNbrs x y).filter (fun n =>
          decide (0 ≤ n.1 ∧ n.1 < (gridW m : ℤ) ∧ 0 ≤ n.2 ∧ n.2 < (gridH m : ℤ) ∧
            readPix m n.1 n.2 = 1 ∧ n ∉ V)))
        (V ∪ ((floodNbrs x y).filter (fun n =>
          decide (0 ≤ n.1 ∧ n.1 < (gridW m : ℤ) ∧ 0 ≤ n.2 ∧ n.2 < (gridH m : ℤ) ∧
            readPix m n.1 n.2 = 1 ∧ n ∉ V))).toFinset) := rfl

theorem flood_path_split (m : Grid) (x y : ℤ) (rest : List (ℤ × ℤ))
    (V N : Finset (ℤ × ℤ)) (hxV : (x, y) ∈ V) (hrestV : ∀ q ∈ rest, q ∈ V)
    (hnew : ∀ r, r ∈ N ↔ adj4 m (x, y) r = true ∧ r ∉ V) :
    ∀ s r, Relation.ReflTransGen (avoidRel m V) s r → (s = (x, y) ∨ s ∈ rest) →
      (r ∈ V ∧ (r = (x, y) ∨ r ∈ rest)) ∨ r ∈ N ∨
        ∃ t, (t ∈ rest ∨ t ∈ N) ∧ Relation.ReflTransGen (avoidRel m (V ∪ N)) t r := by
  intro s r hpath hs
  induction hpath with
  | refl =>
    rcases hs with rfl | hsr
    · exact Or.inl ⟨hxV, Or.inl rfl⟩
    · exact Or.inl ⟨hrestV s hsr, Or.inr hsr⟩
  | @tail b c hab hbc ih =>
    obtain ⟨hadj, hcV⟩ := hbc
    by_cases hcN : c ∈ N
    · exact Or.inr (Or.inl hcN)
    · have hcVN : c ∉ V ∪ N := by
        intro hmem
        rcases Finset.mem_union.mp hmem with h | h
        · exact hcV h
        · exact hcN h
      rcases ih with ⟨hbV, hb⟩ | hbN | ⟨t, ht, hpath'⟩
      · rcases hb with rfl | hbrest
        · exact absurd ((hnew c).mpr ⟨hadj, hcV⟩) hcN
        · exact Or.inr (Or.inr ⟨b, Or.inl hbrest,
            Relation.ReflTransGen.single ⟨hadj, hcVN⟩⟩)
      · exact Or.inr (Or.inr ⟨b, Or.inr hbN,
          Relation.ReflTransGen.single ⟨hadj, hcVN⟩⟩)
      · exact Or.inr (Or.inr ⟨t, ht, hpath'.tail ⟨hadj, hcVN⟩⟩)

theorem floodLoop_spec (m : Grid) :
    ∀ (fuel : ℕ) (Q : List (ℤ × ℤ)) (V : Finset (ℤ × ℤ)),
      (∀ q ∈ Q, q ∈ fgSet m) → (∀ q ∈ Q, q ∈ V) →
      5 * ((fgSet m) \ V).card + Q.length ≤ fuel →
      ∀ r, r ∈ floodLoop m fuel Q V ↔
        r ∈ V ∨ ∃ s ∈ Q, Relation.ReflTransGen (avoidRel m V) s r := by
  intro fuel
  induction fuel with
  | zero =>
    intro Q V _ _ hle r
    have hQ : Q = [] := List.eq_nil_of_length_eq_zero (by omega)
    subst hQ
    simp [floodLoop]
  | succ n ih =>
    intro Q V hQF hQV hle r
    rcases Q with _ | ⟨⟨x, y⟩, rest⟩
    · simp [floodLoop]
    · have hx : (x, y) ∈ fgSet m := hQF (x, y) (List.mem_cons_self _ _)
      have hxV : (x, y) ∈ V := hQV (x, y) (List.mem_cons_self _ _)
      rw [floodLoop_cons]
      set newL := (floodNbrs x y).filter (fun n =>
        decide (0 ≤ n.1 ∧ n.1 < (gridW m : ℤ) ∧ 0 ≤ n.2 ∧ n.2 < (gridH m : ℤ) ∧
          readPix m n.1 n.2 = 1 ∧ n ∉ V)) with hnewL
      have hmemN : ∀ r', r' ∈ newL ↔ adj4 m (x, y) r' = true ∧ r' ∉ V := by
        intro r'
        rw [hnewL]
        exact mem_floodNew m x y V hx r'
      have hmemNF : ∀ r', r' ∈ newL.toFinset ↔ adj4 m (x, y) r' = true ∧ r' ∉ V := by
        intro r'
        rw [List.mem_toFinset]
        exact hmemN r'
      have hnodup : newL.Nodup := (floodNbrs_nodup x y).filter _
      have hNsub : newL.toFinset ⊆ (fgSet m) \ V := by
        intro r' hr'
        obtain ⟨hadj, hV⟩ := (hmemNF r').mp hr'
        exact Finset.mem_sdiff.mpr ⟨adj4_closed m _ _ hadj, hV⟩
      have hcardN : newL.toFinset.card = newL.length :=
        List.toFinset_card_of_nodup hnodup
      have hsdiff : (fgSet m) \ (V ∪ newL.toFinset) = ((fgSet m) \ V) \ newL.toFinset := by
        ext r'
        simp only [Finset.mem_sdiff, Finset.mem_union]
        tauto
      have hcards : ((fgSet m) \ (V ∪ newL.toFinset)).card =
          ((fgSet m) \ V).card - newL.toFinset.card := by
        rw [hsdiff]
        exact Finset.card_sdiff hNsub
      have hcardle : newL.toFinset.card ≤ ((fgSet m) \ V).card :=
        Finset.card_le_card hNsub
      have hQF' : ∀ q ∈ rest ++ newL, q ∈ fgSet m := by
        intro q hq
        rcases List.mem_append.mp hq with h | h
        · exact hQF q (List.mem_cons_of_mem _ h)
        · exact adj4_closed m _ _ ((hmemN q).mp h).1
      have hQV' : ∀ q ∈ rest ++ newL, q ∈ V ∪ newL.toFinset := by
        intro q hq
        rcases List.mem_append.mp hq with h | h
        · exact Finset.mem_union_left _ (hQV q (List.mem_cons_of_mem _ h))
        · exact Finset.mem_union_right _ (List.mem_toFinset.mpr h)
      have hle' : 5 * ((fgSet m) \ (V ∪ newL.toFinset)).card + (rest ++ newL).length ≤ n := by
        rw [hcards, List.length_append]
        simp only [List.length_cons] at hle
        omega
      rw [ih (rest ++ newL) (V ∪ newL.toFinset) hQF' hQV' hle' r]
      have hmono : ∀ a b, avoidRel m (V ∪ newL.toFinset) a b → avoidRel m V a b := by
        rintro a b ⟨hab, hbV⟩
        exact ⟨hab, fun hb => hbV (Finset.mem_union_left _ hb)⟩
      constructor
      · rintro (hrVN | ⟨s, hsm, hpath⟩)
        · rcases Finset.mem_union.mp hrVN with h | h
          · exact Or.inl h
          · obtain ⟨hadj, hrV⟩ := (hmemNF r).mp h
            exact Or.inr ⟨(x, y), List.mem_cons_self _ _,
              Relation.ReflTransGen.single ⟨hadj, hrV⟩⟩
        · rcases List.mem_append.mp hsm with hsr | hsn
          · exact Or.inr ⟨s, List.mem_cons_of_mem _ hsr,
              Relation.ReflTransGen.mono hmono hpath⟩
          · obtain ⟨hadj, hsV⟩ := (hmemN s).mp hsn
            exact Or.inr ⟨(x, y), List.mem_cons_self _ _,
              Relation.ReflTransGen.head ⟨hadj, hsV⟩
                (Relation.ReflTransGen.mono hmono hpath)⟩
      · rintro (hrV | ⟨s, hsm, hpath⟩)
        · exact Or.inl (Finset.mem_union_left _ hrV)
        · have hs' : s = (x, y) ∨ s ∈ rest := by
            rcases List.mem_cons.mp hsm with h | h
            · exact Or.inl h
            · exact Or.inr h
          rcases flood_path_split m x y rest V newL.toFinset hxV
              (fun q hq => hQV q (List.mem_cons_of_mem _ hq)) hmemNF s r hpath hs' with
            ⟨hrV', _⟩ | hrN | ⟨t, ht, hpath'⟩
          · exact Or.inl (Finset.mem_union_left _ hrV')
          · exact Or.inl (Finset.mem_union_right _ hrN)
          · refine Or.inr ⟨t, ?_, hpath'⟩
            rcases ht with h | h
            · exact List.mem_append.mpr (Or.inl h)
            · exact List.mem_append.mpr (Or.inr (List.mem_toFinset.mp h))

theorem fgSet_card_le (m : Grid) : (fgSet m).card ≤ gridW m * gridH m := by
  have hsub : fgSet m ⊆
      (Finset.Icc (0 : ℤ) ((gridW m : ℤ) - 1)) ×ˢ
        (Finset.Icc (0 : ℤ) ((gridH m : ℤ) - 1)) :=
    Finset.filter_subset _ _
  have h1 := Finset.card_le_card hsub
  rw [Finset.card_product, Int.card_Icc, Int.card_Icc] at h1
  have hw : ((gridW m : ℤ) - 1 + 1 - 0).toNat = gridW m := by omega
  have hh : ((gridH m : ℤ) - 1 + 1 - 0).toNat = gridH m := by omega
  rw [hw, hh] at h1
  exact h1

theorem floodFillVisited_spec (m : Grid) (sx sy : ℤ) (V : Finset (ℤ × ℤ))
    (hs : (sx, sy) ∈ fgSet m)
    (hdisj : ∀ q ∈ compOf (fgSet m) (adj4 m) (sx, sy), q ∉ V) :
    floodFillVisited m sx sy V = V ∪ compOf (fgSet m) (adj4 m) (sx, sy) := by
  have hf : ∀ q ∈ [(sx, sy)], q ∈ fgSet m := by
    intro q hq
    rw [List.mem_singleton.mp hq]
    exact hs
  have hv : ∀ q ∈ [(sx, sy)], q ∈ insert (sx, sy) V := by
    intro q hq
    rw [List.mem_singleton.mp hq]
    exact Finset.mem_insert_self _ _
  have hm : 5 * ((fgSet m) \ insert (sx, sy) V).card + ([(sx, sy)] : List (ℤ × ℤ)).length ≤
      5 * (gridW m * gridH m) + 1 := by
    have h1 : ((fgSet m) \ insert (sx, sy) V).card ≤ (fgSet m).card :=
      Finset.card_le_card (Finset.sdiff_subset)
    have h2 := fgSet_card_le m
    simp only [List.length_singleton]
    omega
  ext r
  rw [floodFillVisited,
    floodLoop_spec m (5 * (gridW m * gridH m) + 1) [(sx, sy)] (insert (sx, sy) V) hf hv hm r]
  simp only [List.mem_singleton, exists_eq_left, Finset.mem_union]
  have trim : ∀ r', Relation.ReflTransGen (fun a b => adj4 m a b = true) (sx, sy) r' →
      r' ∈ insert (sx, sy) V ∨
        Relation.ReflTransGen (avoidRel m (insert (sx, sy) V)) (sx, sy) r' := by
    intro r' hr'
    induction hr' with
    | refl => exact Or.inl (Finset.mem_insert_self _ _)
    | @tail b c hab hbc ih =>
      by_cases hcIn : c ∈ insert (sx, sy) V
      · exact Or.inl hcIn
      · rcases ih with hbIn | hpath
        · rcases Finset.mem_insert.mp hbIn with rfl | hbV
          · exact Or.inr (Relation.ReflTransGen.single ⟨hbc, hcIn⟩)
          · have hbC : b ∈ compOf (fgSet m) (adj4 m) (sx, sy) :=
              reach_mem_compOf (fgSet m) (adj4 m) (sx, sy) b hs (adj4_closed m) hab
            exact absurd hbV (hdisj b hbC)
        · exact Or.inr (hpath.tail ⟨hbc, hcIn⟩)
  constructor
  · rintro (hr | hpath)
    · rcases Finset.mem_insert.mp hr with rfl | hrV
      · exact Or.inr (mem_compOf_self _ _ _)
      · exact Or.inl hrV
    · refine Or.inr (reach_mem_compOf (fgSet m) (adj4 m) (sx, sy) r hs (adj4_closed m) ?_)
      exact Relation.ReflTransGen.mono (fun a b hab => hab.1) hpath
  · rintro (hrV | hrC)
    · exact Or.inl (Finset.mem_insert_of_mem hrV)
    · rcases trim r (compOf_subset_reach _ _ _ r hrC) with h | h
      · exact Or.inl h
      · exact Or.inr h

/-! ### Contour counting: the row-major scan -/

theorem mooreNeighborTrace_pos (m : Grid) (sx sy : ℤ) (V : Finset (ℤ × ℤ)) (d : ℕ) :
    0 < (mooreNeighborTrace m sx sy V d).length := by
  simp [mooreNeighborTrace, mooreNeighborTraceFull]

theorem rank_split (w a b c d : ℕ) (hb : b < w) (hd : d < w)
    (h : a * w + b = c * w + d) : a = c ∧ b = d := by
  have hb' : b % w = b := Nat.mod_eq_of_lt hb
  have hd' : d % w = d := Nat.mod_eq_of_lt hd
  have h1 : b = d := by
    have h2 : (b + a * w) % w = (d + c * w) % w := by
      rw [Nat.add_comm b (a * w), Nat.add_comm d (c * w), h]
    rwa [Nat.add_mul_mod_self_right, Nat.add_mul_mod_self_right, hb', hd'] at h2
  subst h1
  have h2 : a * w = c * w := Nat.add_right_cancel h
  exact ⟨Nat.eq_of_mul_eq_mul_right (lt_of_le_of_lt (Nat.zero_le _) hb) h2, rfl⟩

theorem rank_inj (w : ℕ) (px py qx qy : ℤ)
    (hp1 : 0 ≤ px) (hp2 : px < (w : ℤ)) (hp3 : 0 ≤ py)
    (hq1 : 0 ≤ qx) (hq2 : qx < (w : ℤ)) (hq3 : 0 ≤ qy)
    (h : rank w (px, py) = rank w (qx, qy)) : px = qx ∧ py = qy := by
  simp only [rank] at h
  obtain ⟨h1, h2⟩ := rank_split w py.toNat px.toNat qy.toNat qx.toNat
    (by omega) (by omega) h
  omega

theorem rank_lt (w h : ℕ) (px py : ℤ) (h1 : 0 ≤ px) (h2 : px < (w : ℤ))
    (h3 : 0 ≤ py) (h4 : py < (h : ℤ)) : rank w (px, py) < h * w := by
  have hx : px.toNat < w := by omega
  have hy : py.toNat + 1 ≤ h := by omega
  have hcalc : rank w (px, py) = py.toNat * w + px.toNat := rfl
  rw [hcalc]
  calc py.toNat * w + px.toNat < py.toNat * w + w := by omega
    _ = (py.toNat + 1) * w := by ring
    _ ≤ h * w := mul_le_mul_right' hy w

theorem foldl_range_inv {β : Type} (P : ℕ → β → Prop) (f : β → ℕ → β) :
    ∀ n, (∀ i st, i < n → P i st → P (i + 1) (f st i)) →
      ∀ st, P 0 st → P n ((List.range n).foldl f st) := by
  intro n
  induction n with
  | zero =>
    intro _ st h
    simpa using h
  | succ k ih =>
    intro hstep st h
    rw [List.range_succ, List.foldl_append, List.foldl_cons, List.foldl_nil]
    exact hstep k _ (Nat.lt_succ_self k)
      (ih (fun i st' hi hP => hstep i st' (Nat.lt_succ_of_lt hi) hP) st h)

theorem traceCell_inv (m : Grid) (y x : ℕ) (hx : x < gridW m) (hy : y < gridH m)
    (st : Finset (ℤ × ℤ) × List Contour)
    (h : ScanInv m (y * gridW m + x) st) :
    ScanInv m (y * gridW m + x + 1) (traceCell m y x st) := by
  set n := y * gridW m + x with hn
  obtain ⟨seeds, hseeds, hvis, hlen⟩ := h
  have hrc : rank (gridW m) ((x : ℤ), (y : ℤ)) = n := by
    rw [hn]
    simp [rank]
  by_cases hcond : readPix m x y = 1 ∧ ((x : ℤ), (y : ℤ)) ∉ st.1
  · have hcF : ((x : ℤ), (y : ℤ)) ∈ fgSet m := by
      rw [mem_fgSet]
      refine ⟨?_, ?_, ?_, ?_, ?_⟩
      · show (0 : ℤ) ≤ (x : ℤ)
        exact Int.natCast_nonneg x
      · show (x : ℤ) < (gridW m : ℤ)
        exact_mod_cast hx
      · show (0 : ℤ) ≤ (y : ℤ)
        exact Int.natCast_nonneg y
      · show (y : ℤ) < (gridH m : ℤ)
        exact_mod_cast hy
      · exact hcond.1
    have hmin : IsRowMajorMin m ((x : ℤ), (y : ℤ)) := by
      intro q hq
      by_contra hlt
      push_neg at hlt
      obtain ⟨p', hp'mem, hp'min⟩ := Finset.exists_min_image
        (compOf (fgSet m) (adj4 m) ((x : ℤ), (y : ℤ))) (rank (gridW m))
        ⟨_, mem_compOf_self _ _ _⟩
      have hp'F : p' ∈ fgSet m := compOf_subset _ _ _ hcF hp'mem
      have hcomp_eq : compOf (fgSet m) (adj4 m) p' =
          compOf (fgSet m) (adj4 m) ((x : ℤ), (y : ℤ)) :=
        compOf_eq_of_mem _ _ (adj4_symmB m) (adj4_closed m) _ _ hcF hp'mem
      have hp'rank : rank (gridW m) p' < n := by
        have h1 := hp'min q hq
        omega
      have hp'min' : IsRowMajorMin m p' := by
        intro r hr
        rw [hcomp_eq] at hr
        exact hp'min r hr
      have hp'seed : p' ∈ seeds := (hseeds p').mpr ⟨hp'F, hp'rank, hp'min'⟩
      have hcInVis : ((x : ℤ), (y : ℤ)) ∈ st.1 := by
        rw [hvis]
        refine Finset.mem_biUnion.mpr ⟨p', hp'seed, ?_⟩
        rw [hcomp_eq]
        exact mem_compOf_self _ _ _
      exact hcond.2 hcInVis
    have hdisj : ∀ q ∈ compOf (fgSet m) (adj4 m) ((x : ℤ), (y : ℤ)), q ∉ st.1 := by
      intro q hq hqV
      rw [hvis] at hqV
      obtain ⟨s₀, hs₀, hqs₀⟩ := Finset.mem_biUnion.mp hqV
      have hs₀F : s₀ ∈ fgSet m := ((hseeds s₀).mp hs₀).1
      have he1 : compOf (fgSet m) (adj4 m) q =
          compOf (fgSet m) (adj4 m) ((x : ℤ), (y : ℤ)) :=
        compOf_eq_of_mem _ _ (adj4_symmB m) (adj4_closed m) _ _ hcF hq
      have he2 : compOf (fgSet m) (adj4 m) q = compOf (fgSet m) (adj4 m) s₀ :=
        compOf_eq_of_mem _ _ (adj4_symmB m) (adj4_closed m) _ _ hs₀F hqs₀
      have hcIn : ((x : ℤ), (y : ℤ)) ∈ st.1 := by
        rw [hvis]
        refine Finset.mem_biUnion.mpr ⟨s₀, hs₀, ?_⟩
        rw [← he2, he1]
        exact mem_compOf_self _ _ _
      exact hcond.2 hcIn
    have hflood : floodFillVisited m (x : ℤ) (y : ℤ) st.1 =
        st.1 ∪ compOf (fgSet m) (adj4 m) ((x : ℤ), (y : ℤ)) :=
      floodFillVisited_spec m _ _ st.1 hcF hdisj
    have hcseed : ((x : ℤ), (y : ℤ)) ∉ seeds := by
      intro hmem
      have hr := ((hseeds _).mp hmem).2.1
      omega
    unfold traceCell
    rw [if_pos hcond, if_pos (mooreNeighborTrace_pos m (x : ℤ) (y : ℤ) st.1 6)]
    refine ⟨insert ((x : ℤ), (y : ℤ)) seeds, ?_, ?_, ?_⟩
    · intro p
      constructor
      · intro hp
        rcases Finset.mem_insert.mp hp with hpc | hp'
        · subst hpc
          exact ⟨hcF, by omega, hmin⟩
        · obtain ⟨h1, h2, h3⟩ := (hseeds p).mp hp'
          exact ⟨h1, by omega, h3⟩
      · rintro ⟨h1, h2, h3⟩
        rcases Nat.lt_succ_iff_lt_or_eq.mp h2 with hlt | heq
        · exact Finset.mem_insert_of_mem ((hseeds p).mpr ⟨h1, hlt, h3⟩)
        · obtain ⟨hb1, hb2, hb3, hb4, _⟩ := (mem_fgSet m p).mp h1
          have heqr : rank (gridW m) p = rank (gridW m) ((x : ℤ), (y : ℤ)) := by
            omega
          obtain ⟨he1, he2⟩ := rank_inj (gridW m) p.1 p.2 (x : ℤ) (y : ℤ) hb1 hb2 hb3
            (Int.natCast_nonneg x) (by exact_mod_cast hx) (Int.natCast_nonneg y) heqr
          have hpc : p = ((x : ℤ), (y : ℤ)) := Prod.ext he1 he2
          rw [hpc]
          exact Finset.mem_insert_self _ _
    · show floodFillVisited m (x : ℤ) (y : ℤ) st.1 =
        (insert ((x : ℤ), (y : ℤ)) seeds).biUnion (fun p => compOf (fgSet m) (adj4 m) p)
      rw [hflood, hvis, Finset.biUnion_insert]
      exact Finset.union_comm _ _
    · simp only [List.length_append, List.length_singleton, hlen,
        Finset.card_insert_of_not_mem hcseed]
  · unfold traceCell
    rw [if_neg hcond]
    refine ⟨seeds, ?_, hvis, hlen⟩
    intro p
    rw [hseeds p]
    constructor
    · rintro ⟨h1, h2, h3⟩
      exact ⟨h1, by omega, h3⟩
    · rintro ⟨h1, h2, h3⟩
      refine ⟨h1, ?_, h3⟩
      rcases Nat.lt_succ_iff_lt_or_eq.mp h2 with hlt | heq
      · exact hlt
      · exfalso
        obtain ⟨hb1, hb2, hb3, hb4, hb5⟩ := (mem_fgSet m p).mp h1
        have heqr : rank (gridW m) p = rank (gridW m) ((x : ℤ), (y : ℤ)) := by
          omega
        obtain ⟨he1, he2⟩ := rank_inj (gridW m) p.1 p.2 (x : ℤ) (y : ℤ) hb1 hb2 hb3
          (Int.natCast_nonneg x) (by exact_mod_cast hx) (Int.natCast_nonneg y) heqr
        have hpc : p = ((x : ℤ), (y : ℤ)) := Prod.ext he1 he2
        subst hpc
        have hcV : ((x : ℤ), (y : ℤ)) ∈ st.1 := by
          by_contra hno
          exact hcond ⟨hb5, hno⟩
        rw [hvis] at hcV
        obtain ⟨s₀, hs₀, hcs₀⟩ := Finset.mem_biUnion.mp hcV
        obtain ⟨hs₀F, hs₀rank, _⟩ := (hseeds s₀).mp hs₀
        have hcomp : compOf (fgSet m) (adj4 m) ((x : ℤ), (y : ℤ)) =
            compOf (fgSet m) (adj4 m) s₀ :=
          compOf_eq_of_mem _ _ (adj4_symmB m) (adj4_closed m) _ _ hs₀F hcs₀
        have hle : rank (gridW m) ((x : ℤ), (y : ℤ)) ≤ rank (gridW m) s₀ := by
          refine h3 s₀ ?_
          rw [hcomp]
          exact mem_compOf_self _ _ _
        omega

/-- **C2** counterexample: the spec promises one contour per
**8-connected** component, but the flood fill marking traced regions is
4-connected (`floodNbrs`): the mask `[[1,0],[0,1]]` is a single
8-connected component yet `traceContours` emits two contours (one per
4-connected component). -/
theorem C2_eight_connected_cex :
    (traceContours [[1, 0], [0, 1]]).length = 2 ∧ ncomp8 [[1, 0], [0, 1]] = 1 ∧
      ncomp4 [[1, 0], [0, 1]] = 2 := by
  decide

/-- **C2** (corrected): for every mask, `traceContours` returns exactly
one contour per **4-connected** foreground component: the length of the
returned contour list equals the number of 4-connected components of
the set of 1-pixels, so no component yields more than one contour. -/
theorem C2_contour_count (m : Grid) :
    (traceContours m).length = ncomp4 m := by
  have hinv : ScanInv m (gridH m * gridW m)
      ((List.range (gridH m)).foldl
        (fun st y => (List.range (gridW m)).foldl (fun st2 x => traceCell m y x st2) st)
        (∅, [])) := by
    have hrow : ∀ y st, y < gridH m → ScanInv m (y * gridW m) st →
        ScanInv m ((y + 1) * gridW m)
          ((List.range (gridW m)).foldl (fun st2 x => traceCell m y x st2) st) := by
      intro y st hy hst
      have hres := foldl_range_inv (fun i st' => ScanInv m (y * gridW m + i) st')
        (fun st2 x => traceCell m y x st2) (gridW m)
        (fun i st' hi hP => traceCell_inv m y i hi hy st' hP) st (by simpa using hst)
      have hres' : ScanInv m (y * gridW m + gridW m)
          ((List.range (gridW m)).foldl (fun st2 x => traceCell m y x st2) st) := hres
      have harith : y * gridW m + gridW m = (y + 1) * gridW m := by ring
      rwa [harith] at hres'
    have h0 : ScanInv m 0 ((∅ : Finset (ℤ × ℤ)), ([] : List Contour)) := by
      refine ⟨∅, ?_, ?_, ?_⟩
      · intro p
        simp
      · simp
      · simp
    exact foldl_range_inv (fun yy st' => ScanInv m (yy * gridW m) st')
      (fun st y => (List.range (gridW m)).foldl (fun st2 x => traceCell m y x st2) st)
      (gridH m) (fun yy st' hyy hP => hrow yy st' hyy hP) _ (by simpa using h0)
  obtain ⟨seeds, hseeds, hvis, hlen⟩ := hinv
  have hlen' : (traceContours m).length = seeds.card := hlen
  rw [hlen']
  have hseeds' : ∀ p, p ∈ seeds ↔ p ∈ fgSet m ∧ IsRowMajorMin m p := by
    intro p
    rw [hseeds p]
    constructor
    · rintro ⟨h1, _, h3⟩
      exact ⟨h1, h3⟩
    · rintro ⟨h1, h3⟩
      refine ⟨h1, ?_, h3⟩
      obtain ⟨hb1, hb2, hb3, hb4, _⟩ := (mem_fgSet m p).mp h1
      exact rank_lt (gridW m) (gridH m) p.1 p.2 hb1 hb2 hb3 hb4
  have hinj : Set.InjOn (fun p => compOf (fgSet m) (adj4 m) p) seeds := by
    intro p hp q hq hpq
    have hpq' : compOf (fgSet m) (adj4 m) p = compOf (fgSet m) (adj4 m) q := hpq
    obtain ⟨hpF, hpMin⟩ := (hseeds' p).mp (Finset.mem_coe.mp hp)
    obtain ⟨hqF, hqMin⟩ := (hseeds' q).mp (Finset.mem_coe.mp hq)
    have hle1 : rank (gridW m) p ≤ rank (gridW m) q := by
      refine hpMin q ?_
      rw [hpq']
      exact mem_compOf_self _ _ _
    have hle2 : rank (gridW m) q ≤ rank (gridW m) p := by
      refine hqMin p ?_
      rw [← hpq']
      exact mem_compOf_self _ _ _
    obtain ⟨hb1, hb2, hb3, _, _⟩ := (mem_fgSet m p).mp hpF
    obtain ⟨hc1, hc2, hc3, _, _⟩ := (mem_fgSet m q).mp hqF
    have heq : rank (gridW m) p = rank (gridW m) q := le_antisymm hle1 hle2
    obtain ⟨he1, he2⟩ := rank_inj (gridW m) p.1 p.2 q.1 q.2 hb1 hb2 hb3 hc1 hc2 hc3 heq
    exact Prod.ext he1 he2
  have himg : seeds.image (fun p => compOf (fgSet m) (adj4 m) p) =
      (fgSet m).image (fun p => compOf (fgSet m) (adj4 m) p) := by
    apply Finset.Subset.antisymm
    · apply Finset.image_subset_image
      intro p hp
      exact ((hseeds' p).mp hp).1
    · intro C hC
      obtain ⟨q, hqF, hqC⟩ := Finset.mem_image.mp hC
      obtain ⟨p', hp'mem, hp'min⟩ := Finset.exists_min_image
        (compOf (fgSet m) (adj4 m) q) (rank (gridW m)) ⟨q, mem_compOf_self _ _ _⟩
      have hp'F : p' ∈ fgSet m := compOf_subset _ _ _ hqF hp'mem
      have hcomp_eq : compOf (fgSet m) (adj4 m) p' = compOf (fgSet m) (adj4 m) q :=
        compOf_eq_of_mem _ _ (adj4_symmB m) (adj4_closed m) _ _ hqF hp'mem
      have hp'min' : IsRowMajorMin m p' := by
        intro r hr
        rw [hcomp_eq] at hr
        exact hp'min r hr
      have hp'seed : p' ∈ seeds := (hseeds' p').mpr ⟨hp'F, hp'min'⟩
      refine Finset.mem_image.mpr ⟨p', hp'seed, ?_⟩
      show compOf (fgSet m) (adj4 m) p' = C
      rw [hcomp_eq]
      exact hqC
  show seeds.card = ((fgSet m).image (fun p => compOf (fgSet m) (adj4 m) p)).card
  rw [← himg]
  exact (Finset.card_image_of_injOn hinj).symm

end PngSvg
